import Mathlib

/-!
# ill-generator: the template interpreter of `main.go`

A shallow embedding of the directive interpreter.  A Go string is a sequence of
bytes; here it is a `List Char` holding one `Char` per byte.  A byte slice is a
`List (Fin 256)`.  Go's `int` is `Int` where a value can be negative (the number
read by `strconv.Atoi`, an index computed by subtraction) and `Nat` where it is
a length, a cursor or a loop counter.  Go slices are shorter than `2^63`
elements; theorems that rely on it take that bound as a hypothesis.

A run-time panic is a value of `Fault`; the interpreter returns it instead of
aborting.
-/

namespace IllGenerator

/-- One byte of a file buffer. -/
abbrev Byte := Fin 256

/-- A Go string, one `Char` per byte. -/
abbrev Text := List Char

/-- The ways a run of `main` panics. -/
inductive Fault
  /-- An index expression `s[k]` with `k` outside `0 .. len(s)-1`. -/
  | indexOutOfRange
  /-- A slice expression `s[lo:hi]` whose bounds are outside the operand. -/
  | sliceBounds
  /-- The error of `ioutil.ReadFile`, passed to `panic`. -/
  | load (path : Text)
  /-- The error of `strconv.Atoi`, passed to `panic`. -/
  | atoi (s : Text)
  /-- The message "there are leftover bytes: ..." of `%empty`. -/
  | leftover (data : List Byte)
  /-- The message "bad number at [...]" of `parseNumber`. -/
  | badNumber (line : Text)
  /-- The message "Unhandled command %..." of the last branch. -/
  | unhandled (line : Text)
  deriving DecidableEq, Repr

/-- The variables of `main`: cursor `i`, the buffers `data` and `context`, what
has been written to `writer` (`out`) and the lines written to standard error
(`diag`, each without its final newline). -/
structure State where
  i : Nat
  data : List Byte
  context : List Byte
  out : Text
  diag : List Text
  deriving DecidableEq, Repr

/-- Source: `isNum`, `c >= '0' && c <= '9'`. -/
def isNum (c : Char) : Bool :=
  decide ('0'.toNat ≤ c.toNat) && decide (c.toNat ≤ '9'.toNat)

/-- Go index expression `s[k]` for an `int` index: `none` is the panic. -/
def goIndex {α : Type} (s : List α) (k : Int) : Option α :=
  if k < 0 then none else s[k.toNat]?

/-- Go slice expression `s[lo:hi]`, used where `lo ≤ hi ≤ len(s)` is known. -/
def slice {α : Type} (s : List α) (lo hi : Nat) : List α :=
  (s.take hi).drop lo

/-- Library `strings.IndexByte`: offset of the first occurrence, `none` for -1. -/
def indexByte : Text → Char → Option Nat
  | [], _ => none
  | x :: xs, c => if x = c then some 0 else (indexByte xs c).map (· + 1)

/-- Value of a run of decimal digits, most significant first. -/
def digitsVal (cs : Text) : Nat :=
  cs.foldl (fun a c => a * 10 + (c.toNat - '0'.toNat)) 0

/-- Library `strconv.Atoi` on a 64-bit platform: an optional sign, at least one
decimal digit, nothing else, and a value in `-2^63 .. 2^63-1`; `none` is the
returned error. -/
def atoi (s : Text) : Option Int :=
  let neg := s.head? = some '-'
  let body := if s.head? = some '-' ∨ s.head? = some '+' then s.drop 1 else s
  if body = [] ∨ body.all isNum = false then none
  else if neg then
    (if digitsVal body ≤ 2 ^ 63 then some (-(digitsVal body : Int)) else none)
  else
    (if digitsVal body < 2 ^ 63 then some (digitsVal body : Int) else none)

/-- Width in bytes of the white-space rune (`unicode.IsSpace`, UTF-8 encoded)
at the head of the string, 0 when the string does not start with one. -/
def spaceWidth (s : Text) : Nat :=
  match s.map Char.toNat with
  | 0x20 :: _ => 1
  | 0x09 :: _ => 1
  | 0x0A :: _ => 1
  | 0x0B :: _ => 1
  | 0x0C :: _ => 1
  | 0x0D :: _ => 1
  | 0xC2 :: 0x85 :: _ => 2
  | 0xC2 :: 0xA0 :: _ => 2
  | 0xE1 :: 0x9A :: 0x80 :: _ => 3
  | 0xE2 :: 0x80 :: c :: _ =>
    if (0x80 ≤ c ∧ c ≤ 0x8A) ∨ c = 0xA8 ∨ c = 0xA9 ∨ c = 0xAF then 3 else 0
  | 0xE2 :: 0x81 :: 0x9F :: _ => 3
  | 0xE3 :: 0x80 :: 0x80 :: _ => 3
  | _ => 0

/-- Scan of `strings.Fields`: `skip` counts the remaining bytes of a white-space
rune, `cur` is the field being collected. -/
def fieldsGo : Text → Nat → Text → List Text
  | [], _, cur => if cur = [] then [] else [cur]
  | _ :: rest, skip + 1, cur => fieldsGo rest skip cur
  | c :: rest, 0, cur =>
    if spaceWidth (c :: rest) = 0 then fieldsGo rest 0 (cur ++ [c])
    else if cur = [] then fieldsGo rest (spaceWidth (c :: rest) - 1) []
    else cur :: fieldsGo rest (spaceWidth (c :: rest) - 1) []

/-- Library `strings.Fields`: the maximal runs of non-white-space bytes. -/
def fields (s : Text) : List Text := fieldsGo s 0 []

/-- Verb `%d` of `fmt` on a non-negative integer. -/
def fmtDec (v : Nat) : Text := Nat.toDigits 10 v

/-- Verb `%X` of `fmt` on a non-negative integer: upper-case hexadecimal,
as many digits as the value has. -/
def fmtHexUpper (v : Nat) : Text := (Nat.toDigits 16 v).map Char.toUpper

/-- Verb `%02x` of `fmt` on a byte: two lower-case hexadecimal digits. -/
def fmtHex02 (b : Byte) : Text :=
  [Nat.digitChar (b.val / 16), Nat.digitChar (b.val % 16)]

/-- The loop of `numFromContext`: `k` iterations are left, `b` is the loop
variable and `val` the accumulator.  With at most seven bytes the accumulator
stays below `2^56`, so the 64-bit `int` never wraps. -/
def numLoop (context : List Byte) (index : Int) : Nat → Nat → Nat → Except Fault Nat
  | 0, _, val => .ok val
  | k + 1, b, val =>
    match goIndex context (index + (b : Int)) with
    | none => .error .indexOutOfRange
    | some x => numLoop context index k (b + 1) (val ||| (x.val <<< (8 * b)))

/-- Source: `numFromContext`. -/
def numFromContext (context : List Byte) (index : Int) (byteCount : Nat) :
    Except Fault Nat :=
  numLoop context index byteCount 0 0

/-- The scan `for nend < len(line) && isNum(line[nend])` of `parseNumber`. -/
def numEnd : Text → Nat
  | [] => 0
  | c :: cs => if isNum c then numEnd cs + 1 else 0

/-- Source: `parseNumber`, returning `(num, span)`. -/
def parseNumber (line : Text) : Except Fault (Int × Nat) :=
  if numEnd line = 0 then .error (.badNumber line)
  else
    match atoi (line.take (numEnd line)) with
    | none => .error (.atoi (line.take (numEnd line)))
    | some num => .ok (num, numEnd line)

/-- The index expression `context[k]` of the one-byte forms. -/
def byteAt (context : List Byte) (k : Int) : Except Fault Byte :=
  match goIndex context k with
  | none => .error .indexOutOfRange
  | some b => .ok b

/-- The loop of the `%bytes` branch: `k` is the index of the head of the list. -/
def bytesLoop : Nat → List Byte → Text
  | _, [] => []
  | k, b :: bs =>
    (' ' :: fmtHex02 b) ++ (if k % 32 = 31 then ['\n'] else []) ++ bytesLoop (k + 1) bs

/-- What the `%bytes` branch writes for a context. -/
def renderBytes (context : List Byte) : Text :=
  bytesLoop 0 context ++ (if context.length % 32 ≠ 0 then ['\n'] else [])

/-- Body of a decimal branch of width 2 to 6. -/
def decBranch (s : State) (line : Text) (w : Nat) : Except Fault State :=
  match parseNumber (line.drop w) with
  | .error f => .error f
  | .ok (num, span) =>
    match numFromContext s.context num w with
    | .error f => .error f
    | .ok val => .ok { s with out := s.out ++ fmtDec val, i := s.i + (1 + w + span) }

/-- Body of a `0x` branch of width 2 to 6; `off` is where the argument is read
(the source reads it at 4 in the `xxxxx` branch). -/
def hexBranch (s : State) (line : Text) (off w : Nat) : Except Fault State :=
  match parseNumber (line.drop off) with
  | .error f => .error f
  | .ok (num, span) =>
    match numFromContext s.context num w with
    | .error f => .error f
    | .ok val =>
      .ok { s with out := s.out ++ ('0' :: 'x' :: fmtHexUpper val), i := s.i + (1 + w + span) }

/-- The two renderings of the `n` forms. -/
def fmtHybrid (val : Nat) : Text :=
  if val < 10 then fmtDec val
  else ('0' :: 'x' :: fmtHexUpper val) ++ [' ', '('] ++ fmtDec val ++ [')']

/-- Body of an `n` branch of width 2 to 6. -/
def hybridBranch (s : State) (line : Text) (w : Nat) : Except Fault State :=
  match parseNumber (line.drop w) with
  | .error f => .error f
  | .ok (num, span) =>
    match numFromContext s.context num w with
    | .error f => .error f
    | .ok val => .ok { s with out := s.out ++ fmtHybrid val, i := s.i + (1 + w + span) }

/-- Body of the one-byte branches `d`, `x`, `n`, the bare form and `-`: the
argument is read at `off`, `idx` turns it into the index, `render` is the verb,
`adv` the cursor advance without the span. -/
def byteBranch (s : State) (line : Text) (off : Nat) (idx : Int → Int)
    (render : Byte → Text) (adv : Nat) : Except Fault State :=
  match parseNumber (line.drop off) with
  | .error f => .error f
  | .ok (num, span) =>
    match byteAt s.context (idx num) with
    | .error f => .error f
    | .ok b => .ok { s with out := s.out ++ render b, i := s.i + (adv + span) }

/-- The chain of command branches of `main`, in source order, for the command
line `line` whose end is at offset `e` from the cursor. -/
def exec (load : Text → Option (List Byte)) (t : Text) (s : State) (e : Nat)
    (line : Text) : Except Fault State :=
  if line.length > 5 ∧ line.take 5 = ['f', 'i', 'l', 'e', ' '] then
    match load (line.drop 5) with
    | none => .error (.load (line.drop 5))
    | some d => .ok { s with data := d, i := s.i + e + 1 }
  else if line.length > 5 ∧ line.take 5 = ['n', 'e', 'x', 't', ' '] then
    match (fields line)[1]? with
    | none => .error .indexOutOfRange
    | some tok =>
      match atoi tok with
      | none => .error (.atoi tok)
      | some nbytes =>
        -- `data[:nbytes]` is checked against the capacity, `data[nbytes:]`
        -- against the length: one of the two panics unless 0 ≤ nbytes ≤ len
        if nbytes < 0 ∨ (s.data.length : Int) < nbytes then .error .sliceBounds
        else
          .ok { s with
            context := s.data.take nbytes.toNat
            data := s.data.drop nbytes.toNat
            i := s.i + e + 1 }
  else if line.length ≥ 5 ∧ line.take 5 = ['e', 'm', 'p', 't', 'y'] then
    if s.data.length > 0 then .error (.leftover s.data)
    else .ok { s with i := s.i + e + 1 }
  else if line.length ≥ 5 ∧ line.take 5 = ['b', 'y', 't', 'e', 's'] then
    .ok { s with out := s.out ++ renderBytes s.context, i := s.i + e + 1 }
  else if line.length ≥ 4 ∧ line.take 4 = ['s', 't', 'o', 'p'] then
    -- `template[i:]` after `i += end + 1`
    if t.length < s.i + e + 1 then .error .sliceBounds
    else .ok { s with out := s.out ++ t.drop (s.i + e + 1), i := t.length }
  else if line.length > 6 ∧ line.take 6 = ['d', 'd', 'd', 'd', 'd', 'd'] then
    decBranch s line 6
  else if line.length > 5 ∧ line.take 5 = ['d', 'd', 'd', 'd', 'd'] then
    decBranch s line 5
  else if line.length > 4 ∧ line.take 4 = ['d', 'd', 'd', 'd'] then
    decBranch s line 4
  else if line.length > 3 ∧ line.take 3 = ['d', 'd', 'd'] then
    decBranch s line 3
  else if line.length > 2 ∧ line.take 2 = ['d', 'd'] then
    decBranch s line 2
  else if line.length > 1 ∧ line.head? = some 'd' then
    byteBranch s line 1 id (fun b => fmtDec b.val) 2
  else if line.length > 1 ∧ line.head? = some '-' then
    byteBranch s line 1 (fun num => (s.context.length : Int) - num) fmtHex02 2
  else if line.length > 6 ∧ line.take 6 = ['x', 'x', 'x', 'x', 'x', 'x'] then
    hexBranch s line 6 6
  else if line.length > 5 ∧ line.take 5 = ['x', 'x', 'x', 'x', 'x'] then
    hexBranch s line 4 5
  else if line.length > 4 ∧ line.take 4 = ['x', 'x', 'x', 'x'] then
    hexBranch s line 4 4
  else if line.length > 3 ∧ line.take 3 = ['x', 'x', 'x'] then
    hexBranch s line 3 3
  else if line.length > 2 ∧ line.take 2 = ['x', 'x'] then
    hexBranch s line 2 2
  else if line.length > 1 ∧ line.head? = some 'x' then
    byteBranch s line 1 id (fun b => '0' :: 'x' :: fmtHexUpper b.val) 2
  else if line.length > 4 ∧ line.length < 6 then
    -- `len(line) > 4 && line[0:6] == "nnnnnn"`: the slice is out of bounds
    .error .sliceBounds
  else if line.length > 4 ∧ line.take 6 = ['n', 'n', 'n', 'n', 'n', 'n'] then
    hybridBranch s line 6
  else if line.length > 5 ∧ line.take 5 = ['n', 'n', 'n', 'n', 'n'] then
    hybridBranch s line 5
  else if line.length > 4 ∧ line.take 4 = ['n', 'n', 'n', 'n'] then
    hybridBranch s line 4
  else if line.length > 3 ∧ line.take 3 = ['n', 'n', 'n'] then
    hybridBranch s line 3
  else if line.length > 2 ∧ line.take 2 = ['n', 'n'] then
    hybridBranch s line 2
  else if line.length > 1 ∧ line.head? = some 'n' then
    byteBranch s line 1 id (fun b => fmtHybrid b.val) 2
  else if line.length ≥ 1 ∧ line.head?.any isNum = true then
    byteBranch s line 0 id fmtHex02 1
  else
    .error (.unhandled line)

/-- The value of `end` for a marker at cursor `i`. -/
def cmdEnd (t : Text) (i : Nat) : Nat :=
  match indexByte (t.drop i) '\n' with
  | none => t.length - i
  | some k => k

/-- The command line `template[i+1 : i+end]`. -/
def cmdLine (t : Text) (i : Nat) : Text :=
  slice t (i + 1) (i + cmdEnd t i)

/-- The text of the diagnostic `command %<line>`. -/
def diagLine (line : Text) : Text :=
  ['c', 'o', 'm', 'm', 'a', 'n', 'd', ' ', '%'] ++ line

/-- One iteration of the loop of `main`, entered with `i < len(template)`. -/
def mainStep (load : Text → Option (List Byte)) (t : Text) (s : State) :
    Except Fault State :=
  match t[s.i]? with
  | none => .error .indexOutOfRange
  | some c =>
    if c = '%' then
      match t[s.i + 1]? with
      | none => .error .indexOutOfRange
      | some c1 =>
        if c1 = '%' then .ok { s with out := s.out ++ ['%'], i := s.i + 2 }
        else
          exec load t { s with diag := s.diag ++ [diagLine (cmdLine t s.i)] }
            (cmdEnd t s.i) (cmdLine t s.i)
    else .ok { s with out := s.out ++ [c], i := s.i + 1 }

/-- How a run ends: the loop is left with a final state, a step panics, or the
iteration budget of the model is used up.  The state of `panicked` is the one
the failing step started from: its `out` is all that was written to `writer`,
no branch writing before it panics; the diagnostic line of the failing
directive, written before the panic, is not in its `diag`. -/
inductive Outcome
  | finished (s : State)
  | panicked (f : Fault) (s : State)
  | unfinished
  deriving DecidableEq, Repr

/-- The loop `for i < len(template)` with an iteration budget. -/
def mainLoop (load : Text → Option (List Byte)) (t : Text) : Nat → State → Outcome
  | 0, _ => .unfinished
  | fuel + 1, s =>
    if s.i < t.length then
      match mainStep load t s with
      | .ok s1 => mainLoop load t fuel s1
      | .error f => .panicked f s
    else .finished s

/-- The state at the start of `main`. -/
def initial : State := ⟨0, [], [], [], []⟩

/-- Source: `main`, on the template read from standard input and a file loader.
The budget is one iteration for each cursor position and one for the last test
of the loop condition. -/
def main (load : Text → Option (List Byte)) (t : Text) : Outcome :=
  mainLoop load t (t.length + 1) initial

/-! ## Notions used to state the properties -/

/-- The little-endian value of the `w` bytes of `context` from `index` on: the
byte at `index + b` weighs `256 ^ b`. -/
def leValue (context : List Byte) (index w : Nat) : Nat :=
  Finset.sum (Finset.range w) (fun b => (context.getD (index + b) 0).val * 256 ^ b)

/-- The text `dg` is a decimal numeral of `n`: not empty, digits only, of
value `n`. -/
def IsNumeral (dg : Text) (n : Nat) : Prop :=
  dg ≠ [] ∧ (∀ c ∈ dg, isNum c = true) ∧ digitsVal dg = n

/-- The part of `body` before its first newline. -/
def lineOf (body : Text) : Text := body.takeWhile (fun c => c != '\n')

/-- The template of the end-to-end sequence for a file name `path`. -/
def sequenceTemplate (path : Text) : Text :=
  "%file ".toList ++ path ++ "\n%next 4\n%xxxx0\n%empty\n".toList

/-- A file loader that knows the single file `f`, with the given content. -/
def oneFile (content : List Byte) (path : Text) : Option (List Byte) :=
  if path = ['f'] then some content else none

/-- One rendered octet: a space and the two lower-case hexadecimal digits. -/
def octet (b : Byte) : Text := ' ' :: fmtHex02 b

/-- The consecutive chunks of at most 32 bytes, cut with a budget of `fuel`
chunks. -/
def chunksFuel : Nat → List Byte → List (List Byte)
  | 0, _ => []
  | fuel + 1, l => if l = [] then [] else l.take 32 :: chunksFuel fuel (l.drop 32)

/-- The consecutive chunks of at most 32 bytes of a byte sequence. -/
def chunks (l : List Byte) : List (List Byte) := chunksFuel l.length l

/-- The lines of a list of chunks: the octets of each chunk, then a newline. -/
def chunkLines (cs : List (List Byte)) : Text :=
  (cs.map (fun ch => (ch.map octet).flatten ++ ['\n'])).flatten

/-- The result of a step from `s` is a panic or a state whose cursor is at
least 2 further. -/
def Advances (s : State) (r : Except Fault State) : Prop :=
  ∀ s1, r = .ok s1 → s.i + 2 ≤ s1.i

/-- The number of steps the loop attempts from `s` within a budget of `fuel`
iterations, a panicking step included. -/
def stepCount (load : Text → Option (List Byte)) (t : Text) : Nat → State → Nat
  | 0, _ => 0
  | fuel + 1, s =>
    if s.i < t.length then
      match mainStep load t s with
      | .ok s1 => stepCount load t fuel s1 + 1
      | .error _ => 1
    else 0

/-- The command lines of the recognised forms: a line that starts with
`file `, `next `, `empty`, `bytes` or `stop`, a line of at least two characters
that starts with `d`, `x`, `n` or `-`, or a line that starts with a decimal
digit. -/
def Recognised (line : Text) : Prop :=
  line.take 5 = ['f', 'i', 'l', 'e', ' '] ∨ line.take 5 = ['n', 'e', 'x', 't', ' '] ∨
    line.take 5 = ['e', 'm', 'p', 't', 'y'] ∨ line.take 5 = ['b', 'y', 't', 'e', 's'] ∨
    line.take 4 = ['s', 't', 'o', 'p'] ∨
    (line.length > 1 ∧
      (line.head? = some 'd' ∨ line.head? = some 'x' ∨ line.head? = some 'n' ∨
        line.head? = some '-')) ∨
    line.head?.any isNum = true

/-- The names of the numeric forms: empty for the bare form, `-` for the
from-end form, or one to six times the letter of a family. -/
def IsNumericName (name : Text) : Prop :=
  name = [] ∨ name = ['-'] ∨
    ∃ c w, (c = 'd' ∨ c = 'x' ∨ c = 'n') ∧ 1 ≤ w ∧ w ≤ 6 ∧ name = List.replicate w c

/-- The keywords of the buffer commands, as the branches test them. -/
def IsBufferKeyword (kw : Text) : Prop :=
  kw = ['f', 'i', 'l', 'e', ' '] ∨ kw = ['n', 'e', 'x', 't', ' '] ∨
    kw = ['e', 'm', 'p', 't', 'y'] ∨ kw = ['b', 'y', 't', 'e', 's']

/-! ## Indexing and decoding -/

theorem goIndex_cast {α : Type} (s : List α) (n : Nat) : goIndex s (n : Int) = s[n]? := by
  simp [goIndex]

theorem goIndex_cast_add {α : Type} (s : List α) (n b : Nat) :
    goIndex s ((n : Int) + (b : Int)) = s[n + b]? := by
  rw [← Int.ofNat_add]; exact goIndex_cast s (n + b)

theorem getElem?_eq_getD {α : Type} (s : List α) (k : Nat) (d : α) (h : k < s.length) :
    s[k]? = some (s.getD k d) := by
  rw [List.getD_eq_getElem?_getD, List.getElem?_eq_getElem h]; rfl

theorem lor_shift_eq_add (val x b : Nat) (h : val < 2 ^ (8 * b)) :
    val ||| (x <<< (8 * b)) = val + x * 2 ^ (8 * b) := by
  rw [Nat.shiftLeft_eq, Nat.lor_comm, Nat.mul_comm x, ← Nat.mul_add_lt_is_or h, Nat.add_comm]

theorem numLoop_eq (context : List Byte) (index : Nat) :
    ∀ (k b val : Nat), val < 2 ^ (8 * b) → index + b + k ≤ context.length →
      numLoop context (index : Int) k b val =
        .ok (val + Finset.sum (Finset.range k)
          (fun j => (context.getD (index + (b + j)) 0).val * 256 ^ (b + j))) := by
  intro k
  induction k with
  | zero => intro b val _ _; simp [numLoop]
  | succ k ih =>
    intro b val hval hlen
    have hx := getElem?_eq_getD context (index + b) 0 (by omega)
    have hbyte : (context.getD (index + b) 0).val < 256 := (context.getD (index + b) 0).isLt
    have hnew : val ||| ((context.getD (index + b) 0).val <<< (8 * b)) < 2 ^ (8 * (b + 1)) := by
      rw [lor_shift_eq_add _ _ _ hval]
      have : 2 ^ (8 * (b + 1)) = 256 * 2 ^ (8 * b) := by
        rw [Nat.mul_add, Nat.pow_add]; ring
      rw [this]
      nlinarith [Nat.pos_pow_of_pos (8 * b) (by norm_num : 0 < 2)]
    simp only [numLoop, goIndex_cast_add, hx]
    rw [ih (b + 1) _ hnew (by omega), lor_shift_eq_add _ _ _ hval, Finset.sum_range_succ']
    have h256 : (256 : Nat) ^ b = 2 ^ (8 * b) := by
      rw [Nat.pow_mul]
    simp only [Nat.add_zero, h256]
    congr 1
    have : ∀ j, b + 1 + j = b + (j + 1) := by intro j; omega
    simp only [this]
    ring

theorem numFromContext_eq_leValue (context : List Byte) (index w : Nat)
    (hlen : index + w ≤ context.length) :
    numFromContext context (index : Int) w = .ok (leValue context index w) := by
  unfold numFromContext leValue
  rw [numLoop_eq context index w 0 0 (by norm_num) (by omega)]
  simp

/-! ## Decimal numerals and `parseNumber` -/

theorem digitChar_spec : ∀ d, d < 10 →
    isNum (Nat.digitChar d) = true ∧ (Nat.digitChar d).toNat - '0'.toNat = d := by
  decide

theorem digitsVal_append_single (pre : Text) (c : Char) :
    digitsVal (pre ++ [c]) = digitsVal pre * 10 + (c.toNat - '0'.toNat) := by
  simp [digitsVal, List.foldl_append]

theorem toDigitsCore_numeral :
    ∀ (fuel n : Nat) (ds : Text), n < fuel →
      ∃ pre, Nat.toDigitsCore 10 fuel n ds = pre ++ ds ∧ IsNumeral pre n := by
  intro fuel
  induction fuel with
  | zero => intro n ds h; omega
  | succ fuel ih =>
    intro n ds h
    have hd := digitChar_spec (n % 10) (Nat.mod_lt _ (by norm_num))
    unfold Nat.toDigitsCore
    by_cases h0 : n / 10 = 0
    · refine ⟨[Nat.digitChar (n % 10)], ?_, ?_, ?_, ?_⟩
      · simp [h0]
      · simp
      · intro c hc; simp at hc; rw [hc]; exact hd.1
      · have : digitsVal [Nat.digitChar (n % 10)] =
            (Nat.digitChar (n % 10)).toNat - '0'.toNat := by
          simp [digitsVal]
        rw [this, hd.2]; omega
    · obtain ⟨pre, hpre, hne, hall, hval⟩ :=
        ih (n / 10) (Nat.digitChar (n % 10) :: ds) (by omega)
      refine ⟨pre ++ [Nat.digitChar (n % 10)], ?_, ?_, ?_, ?_⟩
      · simp [h0, hpre]
      · simp
      · intro c hc
        rcases List.mem_append.mp hc with hc | hc
        · exact hall c hc
        · simp at hc; rw [hc]; exact hd.1
      · rw [digitsVal_append_single, hval, hd.2]; omega

theorem toDigits_numeral (n : Nat) : IsNumeral (Nat.toDigits 10 n) n := by
  obtain ⟨pre, hpre, h⟩ := toDigitsCore_numeral (n + 1) n [] (by omega)
  unfold Nat.toDigits
  rw [hpre, List.append_nil]; exact h

theorem numEnd_numeral (dg r : Text) (hall : ∀ c ∈ dg, isNum c = true)
    (hr : r.head?.any isNum = false) : numEnd (dg ++ r) = dg.length := by
  induction dg with
  | nil =>
    cases r with
    | nil => rfl
    | cons c r => simp at hr; simp [numEnd, hr]
  | cons c dg ih =>
    have hc : isNum c = true := hall c (by simp)
    simp [numEnd, hc, ih (fun x hx => hall x (by simp [hx]))]

theorem isNum_ne_sign : ∀ c : Char, isNum c = true → c ≠ '-' ∧ c ≠ '+' := by
  intro c h
  constructor <;> (intro hc; subst hc; revert h; decide)

theorem atoi_numeral (dg : Text) (n : Nat) (h : IsNumeral dg n) (hn : n < 2 ^ 63) :
    atoi dg = some (n : Int) := by
  obtain ⟨hne, hall, hval⟩ := h
  cases dg with
  | nil => exact absurd rfl hne
  | cons c dg =>
    have hc := isNum_ne_sign c (hall c (by simp))
    have hall2 : (c :: dg).all isNum = true := by
      rw [List.all_eq_true]; exact hall
    simp only [atoi, List.head?_cons, Option.some.injEq, hc.1, hc.2, or_self, if_false,
      hall2, hval]
    simpa using hn

theorem parseNumber_numeral (dg r : Text) (n : Nat) (h : IsNumeral dg n) (hn : n < 2 ^ 63)
    (hr : r.head?.any isNum = false) :
    parseNumber (dg ++ r) = .ok ((n : Int), dg.length) := by
  have hend := numEnd_numeral dg r h.2.1 hr
  have hpos : dg.length ≠ 0 := by
    intro h0; exact h.1 (List.length_eq_zero.mp h0)
  unfold parseNumber
  rw [hend, if_neg hpos, List.take_left, atoi_numeral dg n h hn]

/-! ## The command line of a directive -/

theorem indexByte_lineOf (body : Text) :
    (match indexByte body '\n' with
      | none => body.length
      | some k => k) = (lineOf body).length := by
  induction body with
  | nil => rfl
  | cons c body ih =>
    by_cases hc : c = '\n'
    · subst hc; simp [indexByte, lineOf]
    · simp only [indexByte, if_neg hc, lineOf, List.takeWhile_cons, bne_iff_ne, ne_eq, hc,
        not_false_eq_true, decide_True, if_true, List.length_cons]
      cases h : indexByte body '\n' with
      | none => simp [h, lineOf] at ih ⊢; exact ih
      | some k => simp [h, lineOf] at ih ⊢; exact ih

theorem take_length_lineOf (body : Text) : body.take (lineOf body).length = lineOf body := by
  induction body with
  | nil => rfl
  | cons c body ih =>
    by_cases hc : c = '\n'
    · subst hc; simp [lineOf]
    · simp only [lineOf] at ih ⊢
      simp [List.takeWhile_cons, hc, ih]

theorem cmd_of_drop (t : Text) (i : Nat) (body : Text) (h : t.drop i = '%' :: body) :
    cmdEnd t i = 1 + (lineOf body).length ∧ cmdLine t i = lineOf body := by
  have hlen : t.length - i = body.length + 1 := by
    have := congrArg List.length h
    simpa using this
  have hend : cmdEnd t i = 1 + (lineOf body).length := by
    unfold cmdEnd
    rw [h]
    have hb := indexByte_lineOf body
    simp only [indexByte, show ('%' : Char) ≠ '\n' by decide, if_false]
    cases hi : indexByte body '\n' with
    | none => simp [hi] at hb ⊢; omega
    | some k => simp [hi] at hb ⊢; omega
  refine ⟨hend, ?_⟩
  unfold cmdLine slice
  rw [hend, List.drop_take]
  have hd : t.drop (i + 1) = body := by
    rw [← List.drop_drop, h]; rfl
  rw [hd]
  have : i + (1 + (lineOf body).length) - (i + 1) = (lineOf body).length := by omega
  rw [this, take_length_lineOf]

theorem mainStep_directive (load : Text → Option (List Byte)) (t : Text) (s : State)
    (c : Char) (body : Text) (h : t.drop s.i = '%' :: c :: body) (hc : c ≠ '%') :
    mainStep load t s =
      exec load t { s with diag := s.diag ++ [diagLine (lineOf (c :: body))] }
        (1 + (lineOf (c :: body)).length) (lineOf (c :: body)) := by
  have h0 : t[s.i]? = some '%' := by
    have := congrArg (fun l => l[0]?) h
    simpa using this
  have h1 : t[s.i + 1]? = some c := by
    have := congrArg (fun l => l[1]?) h
    simpa using this
  obtain ⟨he, hl⟩ := cmd_of_drop t s.i (c :: body) h
  simp only [mainStep, h0, h1, if_true, if_neg hc, he, hl]

theorem lineOf_append (a r : Text) (ha : ∀ c ∈ a, c ≠ '\n') :
    lineOf (a ++ r) = a ++ lineOf r := by
  induction a with
  | nil => rfl
  | cons c a ih =>
    have hc : c ≠ '\n' := ha c (by simp)
    have := ih (fun x hx => ha x (by simp [hx]))
    simp only [lineOf] at this ⊢
    simp [List.takeWhile_cons, hc, this]

theorem head_lineOf (r : Text) (h : r.head?.any isNum = false) :
    (lineOf r).head?.any isNum = false := by
  cases r with
  | nil => rfl
  | cons c r =>
    by_cases hc : c = '\n'
    · subst hc; simp [lineOf]
    · simp at h; simp [lineOf, List.takeWhile_cons, hc, h]

theorem isNum_ne_newline : ∀ c : Char, isNum c = true → c ≠ '\n' := by
  intro c h hc; subst hc; revert h; decide

/-! ## Numeric command lines

The lemmas are about a command line made of the name of the form, a decimal
numeral and a remainder that does not start with a digit, so that the numeral
is the whole argument. -/

theorem isNum_ne_letters : ∀ c : Char, isNum c = true →
    c ≠ 'd' ∧ c ≠ 'x' ∧ c ≠ 'n' ∧ c ≠ '-' ∧ c ≠ '%' ∧ c ≠ 'f' ∧ c ≠ 'e' ∧ c ≠ 'b' ∧ c ≠ 's' := by
  intro c h
  refine ⟨?_, ?_, ?_, ?_, ?_, ?_, ?_, ?_, ?_⟩ <;> (intro hc; subst hc; revert h; decide)

theorem leValue_one (context : List Byte) (n : Nat) :
    leValue context n 1 = (context.getD n 0).val := by
  simp [leValue]

theorem exec_dec (load : Text → Option (List Byte)) (t : Text) (s : State) (e w n : Nat)
    (dg r : Text) (hw1 : 1 ≤ w) (hw6 : w ≤ 6) (hdg : IsNumeral dg n) (hn : n < 2 ^ 63)
    (hr : r.head?.any isNum = false) (hlen : n + w ≤ s.context.length) :
    exec load t s e (List.replicate w 'd' ++ dg ++ r) =
      .ok { s with
        out := s.out ++ fmtDec (leValue s.context n w)
        i := s.i + (1 + w + dg.length) } := by
  have hnum := numFromContext_eq_leValue s.context n w hlen
  have hp := parseNumber_numeral dg r n hdg hn hr
  cases dg with
  | nil => exact absurd rfl hdg.1
  | cons d0 ds =>
    have hd0 := isNum_ne_letters d0 (hdg.2.1 d0 (by simp))
    have hp1 : parseNumber (d0 :: (ds ++ r)) = .ok ((n : Int), ds.length + 1) := by
      simpa using hp
    interval_cases w
    · have hb := getElem?_eq_getD s.context n 0 (by omega)
      simp [exec, hd0, byteBranch, hp1, byteAt, goIndex_cast, hb, leValue_one,
        -List.getD_eq_getElem?_getD]
    all_goals simp [exec, hd0, decBranch, hp1, hnum]

/-! ## Steps and the loop -/

theorem mainStep_at (load : Text → Option (List Byte)) (t : Text) (s : State)
    (a rest : Text) (hne : a ≠ []) (hnl : ∀ c ∈ a, c ≠ '\n') (hhd : a.head? ≠ some '%')
    (h : t.drop s.i = '%' :: (a ++ rest)) :
    mainStep load t s =
      exec load t { s with diag := s.diag ++ [diagLine (a ++ lineOf rest)] }
        (1 + (a ++ lineOf rest).length) (a ++ lineOf rest) := by
  cases a with
  | nil => exact absurd rfl hne
  | cons c a =>
    have hc : c ≠ '%' := by
      intro hc; apply hhd; simp [hc]
    have := mainStep_directive load t s c (a ++ rest) (by simpa using h) hc
    rw [this, show c :: (a ++ rest) = (c :: a) ++ rest from rfl, lineOf_append _ _ hnl]

theorem lt_length_of_drop {α : Type} (t : List α) (i : Nat) (c : α) (r : List α)
    (h : t.drop i = c :: r) : i < t.length := by
  by_contra hge
  rw [List.drop_of_length_le (by omega)] at h
  exact List.noConfusion h

theorem drop_succ_of_drop {α : Type} (t : List α) (i : Nat) (c : α) (r : List α)
    (h : t.drop i = c :: r) : t.drop (i + 1) = r := by
  rw [← List.drop_drop, h]; rfl

theorem drop_add_of_drop {α : Type} (t : List α) (i : Nat) (a r : List α)
    (h : t.drop i = a ++ r) : t.drop (i + a.length) = r := by
  rw [← List.drop_drop, h, List.drop_left]

theorem mainLoop_step (load : Text → Option (List Byte)) (t : Text) (fuel : Nat)
    (s s1 : State) (hi : s.i < t.length) (h : mainStep load t s = .ok s1) :
    mainLoop load t (fuel + 1) s = mainLoop load t fuel s1 := by
  simp [mainLoop, hi, h]

theorem mainLoop_fault (load : Text → Option (List Byte)) (t : Text) (fuel : Nat)
    (s : State) (f : Fault) (hi : s.i < t.length) (h : mainStep load t s = .error f) :
    mainLoop load t (fuel + 1) s = .panicked f s := by
  simp [mainLoop, hi, h]

theorem mainLoop_done (load : Text → Option (List Byte)) (t : Text) (fuel : Nat)
    (s : State) (hi : t.length ≤ s.i) :
    mainLoop load t (fuel + 1) s = .finished s := by
  simp [mainLoop, Nat.not_lt.mpr hi]

theorem mainLoop_mono (load : Text → Option (List Byte)) (t : Text) :
    ∀ (fuel k : Nat) (s : State), mainLoop load t fuel s ≠ .unfinished →
      mainLoop load t (fuel + k) s = mainLoop load t fuel s := by
  intro fuel
  induction fuel with
  | zero => intro k s h; exact absurd rfl h
  | succ fuel ih =>
    intro k s h
    rw [show fuel + 1 + k = (fuel + k) + 1 by omega]
    unfold mainLoop at h ⊢
    by_cases hi : s.i < t.length
    · simp only [hi, if_true] at h ⊢
      cases hs : mainStep load t s with
      | error f => rfl
      | ok s1 =>
        simp only [hs] at h ⊢
        exact ih k s1 h
    · simp only [hi, if_false]

theorem mainStep_literal (load : Text → Option (List Byte)) (t : Text) (s : State)
    (c : Char) (r : Text) (h : t.drop s.i = c :: r) (hc : c ≠ '%') :
    mainStep load t s = .ok { s with out := s.out ++ [c], i := s.i + 1 } := by
  have h0 : t[s.i]? = some c := by
    have := congrArg (fun l => l[0]?) h
    simpa using this
  simp [mainStep, h0, hc]

theorem mainLoop_copy (load : Text → Option (List Byte)) (t : Text) (a : Text) :
    ∀ (rest : Text) (fuel : Nat) (s : State), (∀ c ∈ a, c ≠ '%') → t.drop s.i = a ++ rest →
      mainLoop load t (fuel + a.length) s =
        mainLoop load t fuel { s with out := s.out ++ a, i := s.i + a.length } := by
  induction a with
  | nil => intro rest fuel s _ _; simp
  | cons c a ih =>
    intro rest fuel s ha h
    have hc : c ≠ '%' := ha c (by simp)
    have hstep := mainStep_literal load t s c (a ++ rest) h hc
    have hi := lt_length_of_drop t s.i c (a ++ rest) h
    rw [show fuel + (c :: a).length = (fuel + a.length) + 1 by simp; omega,
      mainLoop_step load t _ s _ hi hstep,
      ih rest fuel _ (fun x hx => ha x (by simp [hx]))
        (drop_succ_of_drop t s.i c (a ++ rest) h)]
    simp [Nat.add_assoc, Nat.add_comm 1]

theorem main_literal (load : Text → Option (List Byte)) (t : Text) (h : ∀ c ∈ t, c ≠ '%') :
    main load t = .finished ⟨t.length, [], [], t, []⟩ := by
  unfold main
  rw [Nat.add_comm, mainLoop_copy load t t [] 1 initial h (by simp [initial]),
    mainLoop_done load t 0 _ (by simp [initial])]
  simp [initial]

/-! ## Dispatch of the decimal, `0x` and hybrid families -/

theorem exec_dec_dispatch (load : Text → Option (List Byte)) (t : Text) (s : State)
    (e w : Nat) (d0 : Char) (tl : Text) (hw1 : 1 ≤ w) (hw6 : w ≤ 6) (hd0 : isNum d0 = true) :
    exec load t s e (List.replicate w 'd' ++ d0 :: tl) =
      if w = 1 then
        byteBranch s (List.replicate w 'd' ++ d0 :: tl) 1 id (fun b => fmtDec b.val) 2
      else decBranch s (List.replicate w 'd' ++ d0 :: tl) w := by
  have hd := isNum_ne_letters d0 hd0
  interval_cases w <;> simp [exec, hd]

theorem exec_hex (load : Text → Option (List Byte)) (t : Text) (s : State) (e w n : Nat)
    (dg r : Text) (hw1 : 1 ≤ w) (hw6 : w ≤ 6) (hw5 : w ≠ 5) (hdg : IsNumeral dg n)
    (hn : n < 2 ^ 63) (hr : r.head?.any isNum = false) (hlen : n + w ≤ s.context.length) :
    exec load t s e (List.replicate w 'x' ++ dg ++ r) =
      .ok { s with
        out := s.out ++ ('0' :: 'x' :: fmtHexUpper (leValue s.context n w))
        i := s.i + (1 + w + dg.length) } := by
  have hnum := numFromContext_eq_leValue s.context n w hlen
  have hp := parseNumber_numeral dg r n hdg hn hr
  cases dg with
  | nil => exact absurd rfl hdg.1
  | cons d0 ds =>
    have hd0 := isNum_ne_letters d0 (hdg.2.1 d0 (by simp))
    have hp1 : parseNumber (d0 :: (ds ++ r)) = .ok ((n : Int), ds.length + 1) := by
      simpa using hp
    interval_cases w
    · have hb := getElem?_eq_getD s.context n 0 (by omega)
      simp [exec, hd0, byteBranch, hp1, byteAt, goIndex_cast, hb, leValue_one,
        -List.getD_eq_getElem?_getD]
    · simp [exec, hd0, hexBranch, hp1, hnum]
    · simp [exec, hd0, hexBranch, hp1, hnum]
    · simp [exec, hd0, hexBranch, hp1, hnum]
    · exact absurd rfl hw5
    · simp [exec, hd0, hexBranch, hp1, hnum]

theorem exec_hybrid (load : Text → Option (List Byte)) (t : Text) (s : State) (e w n : Nat)
    (dg r : Text) (hw1 : 1 ≤ w) (hw6 : w ≤ 6) (hdg : IsNumeral dg n)
    (hn : n < 2 ^ 63) (hr : r.head?.any isNum = false) (hlen : n + w ≤ s.context.length)
    (hline : w + dg.length + r.length ≠ 5) :
    exec load t s e (List.replicate w 'n' ++ dg ++ r) =
      .ok { s with
        out := s.out ++ fmtHybrid (leValue s.context n w)
        i := s.i + (1 + w + dg.length) } := by
  have hnum := numFromContext_eq_leValue s.context n w hlen
  have hp := parseNumber_numeral dg r n hdg hn hr
  cases dg with
  | nil => exact absurd rfl hdg.1
  | cons d0 ds =>
    have hd0 := isNum_ne_letters d0 (hdg.2.1 d0 (by simp))
    have hp1 : parseNumber (d0 :: (ds ++ r)) = .ok ((n : Int), ds.length + 1) := by
      simpa using hp
    simp only [List.length_cons] at hline
    interval_cases w
    · have hb := getElem?_eq_getD s.context n 0 (by omega)
      have h5 : ¬ (4 < ds.length + r.length + 1 + 1 ∧ ds.length + r.length + 1 + 1 < 6) := by
        omega
      simp [exec, hd0, byteBranch, hp1, byteAt, goIndex_cast, hb, leValue_one, h5,
        -List.getD_eq_getElem?_getD]
    · have h5 : ¬ (4 < ds.length + r.length + 1 + 1 + 1 ∧
          ds.length + r.length + 1 + 1 + 1 < 6) := by
        omega
      simp [exec, hd0, hybridBranch, hp1, hnum, h5]
    all_goals (simp [exec, hd0, hybridBranch, hp1, hnum] <;> omega)

/-! ## The escape form -/

theorem mainStep_escape (load : Text → Option (List Byte)) (t : Text) (s : State)
    (h0 : t[s.i]? = some '%') (h1 : t[s.i + 1]? = some '%') :
    mainStep load t s = .ok { s with out := s.out ++ ['%'], i := s.i + 2 } := by
  simp [mainStep, h0, h1]

theorem mainStep_escape_drop (load : Text → Option (List Byte)) (t : Text) (s : State)
    (r : Text) (h : t.drop s.i = '%' :: '%' :: r) :
    mainStep load t s = .ok { s with out := s.out ++ ['%'], i := s.i + 2 } := by
  have h0 : t[s.i]? = some '%' := by
    have := congrArg (fun l => l[0]?) h
    simpa using this
  have h1 : t[s.i + 1]? = some '%' := by
    have := congrArg (fun l => l[1]?) h
    simpa using this
  exact mainStep_escape load t s h0 h1

theorem main_escape (load : Text → Option (List Byte)) (a b : Text)
    (ha : ∀ c ∈ a, c ≠ '%') (hb : ∀ c ∈ b, c ≠ '%') :
    main load (a ++ '%' :: '%' :: b) =
      .finished ⟨a.length + 2 + b.length, [], [], a ++ '%' :: b, []⟩ := by
  have hrun : mainLoop load (a ++ '%' :: '%' :: b) (1 + b.length + 1 + a.length) initial =
      .finished ⟨a.length + 2 + b.length, [], [], a ++ '%' :: b, []⟩ := by
    rw [mainLoop_copy load _ a ('%' :: '%' :: b) _ initial ha (by simp [initial])]
    have hd : (a ++ '%' :: '%' :: b).drop (0 + a.length) = '%' :: '%' :: b := by simp
    have hesc := mainStep_escape_drop load (a ++ '%' :: '%' :: b)
      { initial with out := initial.out ++ a, i := initial.i + a.length } b
      (by simp [initial])
    rw [mainLoop_step load _ _ _ _ (by simp [initial]) hesc,
      mainLoop_copy load _ b [] 1 _ hb (by simp [initial]),
      mainLoop_done load _ 0 _ (by simp [initial]; omega)]
    simp [initial]
  unfold main
  have hm := mainLoop_mono load (a ++ '%' :: '%' :: b) (1 + b.length + 1 + a.length) 1 initial
    (by rw [hrun]; exact Outcome.noConfusion)
  rw [show (a ++ '%' :: '%' :: b).length + 1 = 1 + b.length + 1 + a.length + 1 by
    simp; omega, hm, hrun]

/-! ## The end-to-end sequence -/

theorem lineOf_newline (r : Text) : lineOf ('\n' :: r) = [] := by
  simp [lineOf]

theorem sequence_run (load : Text → Option (List Byte)) (path : Text)
    (hne : path ≠ []) (hnl : '\n' ∉ path)
    (hload : load path = some [0x0A, 0x0B, 0x0C, 0x0D]) :
    main load (sequenceTemplate path) =
      .finished ⟨path.length + 29, [], [0x0A, 0x0B, 0x0C, 0x0D], "0xD0C0B0A\n".toList,
        [diagLine ("file ".toList ++ path), diagLine "next 4".toList,
          diagLine "xxxx0".toList, diagLine "empty".toList]⟩ := by
  have hT : sequenceTemplate path =
      ('%' :: (['f', 'i', 'l', 'e', ' '] ++ path)) ++
        ('\n' :: ('%' :: ['n', 'e', 'x', 't', ' ', '4']) ++
          ('\n' :: ('%' :: ['x', 'x', 'x', 'x', '0']) ++
            ('\n' :: ('%' :: ['e', 'm', 'p', 't', 'y']) ++ ['\n']))) := by
    simp [sequenceTemplate]
  generalize sequenceTemplate path = t at hT
  have hlenT : t.length = path.length + 29 := by rw [hT]; simp
  -- `%file`
  have h1 : mainStep load t initial =
      .ok ⟨path.length + 7, [0x0A, 0x0B, 0x0C, 0x0D], [], [],
        [diagLine (['f', 'i', 'l', 'e', ' '] ++ path)]⟩ := by
    rw [mainStep_at load t initial (['f', 'i', 'l', 'e', ' '] ++ path)
      ('\n' :: ('%' :: ['n', 'e', 'x', 't', ' ', '4']) ++
          ('\n' :: ('%' :: ['x', 'x', 'x', 'x', '0']) ++
            ('\n' :: ('%' :: ['e', 'm', 'p', 't', 'y']) ++ ['\n']))) (by simp)
      (by
        intro c hc
        rcases List.mem_append.mp hc with hc | hc
        · exact (by decide : ∀ c ∈ ['f', 'i', 'l', 'e', ' '], c ≠ '\n') c hc
        · intro hcn; exact hnl (hcn ▸ hc))
      (by simp) (by rw [hT]; simp [initial])]
    cases path with
    | nil => exact absurd rfl hne
    | cons p ps =>
      simp [lineOf_newline, exec, hload, initial]
      omega
  have hdrop : ∀ j, t.drop (path.length + 6 + j) =
      (['\n', '%', 'n', 'e', 'x', 't', ' ', '4'] ++
        (['\n', '%', 'x', 'x', 'x', 'x', '0'] ++
          (['\n', '%', 'e', 'm', 'p', 't', 'y'] ++ ['\n']))).drop j := by
    intro j
    rw [← List.drop_drop, hT, List.drop_left' (by simp)]
  -- `%next 4`
  have hf : fields ['n', 'e', 'x', 't', ' ', '4'] = [['n', 'e', 'x', 't'], ['4']] := by decide
  have ha : atoi ['4'] = some 4 := by decide
  have h2 : mainStep load t
      ⟨path.length + 7, [0x0A, 0x0B, 0x0C, 0x0D], [], [],
        [diagLine (['f', 'i', 'l', 'e', ' '] ++ path)]⟩ =
      .ok ⟨path.length + 15, [], [0x0A, 0x0B, 0x0C, 0x0D], [],
        [diagLine (['f', 'i', 'l', 'e', ' '] ++ path),
          diagLine ['n', 'e', 'x', 't', ' ', '4']]⟩ := by
    rw [mainStep_at load t _ ['n', 'e', 'x', 't', ' ', '4']
      ('\n' :: ('%' :: ['x', 'x', 'x', 'x', '0']) ++
            ('\n' :: ('%' :: ['e', 'm', 'p', 't', 'y']) ++ ['\n'])) (by simp) (by decide)
      (by simp) (by rw [show path.length + 7 = path.length + 6 + 1 by omega, hdrop]; rfl)]
    simp [lineOf_newline, exec, hf, ha]
  -- `%xxxx0`
  have hv : fmtHexUpper (leValue [0x0A, 0x0B, 0x0C, 0x0D] 0 4) =
      ['D', '0', 'C', '0', 'B', '0', 'A'] := by decide
  have h3 : mainStep load t
      ⟨path.length + 15, [], [0x0A, 0x0B, 0x0C, 0x0D], [],
        [diagLine (['f', 'i', 'l', 'e', ' '] ++ path),
          diagLine ['n', 'e', 'x', 't', ' ', '4']]⟩ =
      .ok ⟨path.length + 21, [], [0x0A, 0x0B, 0x0C, 0x0D],
        ['0', 'x', 'D', '0', 'C', '0', 'B', '0', 'A'],
        [diagLine (['f', 'i', 'l', 'e', ' '] ++ path),
          diagLine ['n', 'e', 'x', 't', ' ', '4'], diagLine ['x', 'x', 'x', 'x', '0']]⟩ := by
    rw [mainStep_at load t _ ['x', 'x', 'x', 'x', '0']
      ('\n' :: ('%' :: ['e', 'm', 'p', 't', 'y']) ++ ['\n']) (by simp) (by decide)
      (by simp) (by rw [show path.length + 15 = path.length + 6 + 9 by omega, hdrop]; rfl)]
    simp only [List.cons_append, List.nil_append, lineOf_newline]
    have hx := exec_hex load t
      ⟨path.length + 15, [], [0x0A, 0x0B, 0x0C, 0x0D], [],
        [diagLine (['f', 'i', 'l', 'e', ' '] ++ path),
          diagLine ['n', 'e', 'x', 't', ' ', '4']] ++
          [diagLine (['x', 'x', 'x', 'x', '0'] ++ [])]⟩
      (1 + (['x', 'x', 'x', 'x', '0'] ++ ([] : Text)).length) 4 0 ['0'] []
      (by decide) (by decide) (by decide) ⟨by decide, by decide, by decide⟩ (by decide)
      (by decide) (by simp)
    rw [hv] at hx
    simpa using hx
  -- the newline after `%xxxx0`
  have h4 : mainStep load t
      ⟨path.length + 21, [], [0x0A, 0x0B, 0x0C, 0x0D],
        ['0', 'x', 'D', '0', 'C', '0', 'B', '0', 'A'],
        [diagLine (['f', 'i', 'l', 'e', ' '] ++ path),
          diagLine ['n', 'e', 'x', 't', ' ', '4'], diagLine ['x', 'x', 'x', 'x', '0']]⟩ =
      .ok ⟨path.length + 22, [], [0x0A, 0x0B, 0x0C, 0x0D],
        ['0', 'x', 'D', '0', 'C', '0', 'B', '0', 'A', '\n'],
        [diagLine (['f', 'i', 'l', 'e', ' '] ++ path),
          diagLine ['n', 'e', 'x', 't', ' ', '4'], diagLine ['x', 'x', 'x', 'x', '0']]⟩ := by
    rw [mainStep_literal load t _ '\n' (('%' :: ['e', 'm', 'p', 't', 'y']) ++ ['\n'])
      (by rw [show path.length + 21 = path.length + 6 + 15 by omega, hdrop]; rfl) (by decide)]
    simp
  -- `%empty`
  have h5 : mainStep load t
      ⟨path.length + 22, [], [0x0A, 0x0B, 0x0C, 0x0D],
        ['0', 'x', 'D', '0', 'C', '0', 'B', '0', 'A', '\n'],
        [diagLine (['f', 'i', 'l', 'e', ' '] ++ path),
          diagLine ['n', 'e', 'x', 't', ' ', '4'], diagLine ['x', 'x', 'x', 'x', '0']]⟩ =
      .ok ⟨path.length + 29, [], [0x0A, 0x0B, 0x0C, 0x0D],
        ['0', 'x', 'D', '0', 'C', '0', 'B', '0', 'A', '\n'],
        [diagLine (['f', 'i', 'l', 'e', ' '] ++ path),
          diagLine ['n', 'e', 'x', 't', ' ', '4'], diagLine ['x', 'x', 'x', 'x', '0'],
          diagLine ['e', 'm', 'p', 't', 'y']]⟩ := by
    rw [mainStep_at load t _ ['e', 'm', 'p', 't', 'y'] ['\n'] (by simp) (by decide)
      (by simp) (by rw [show path.length + 22 = path.length + 6 + 16 by omega, hdrop]; rfl)]
    simp [lineOf_newline, exec]
  have hrun : mainLoop load t 6 initial =
      .finished ⟨path.length + 29, [], [0x0A, 0x0B, 0x0C, 0x0D],
        ['0', 'x', 'D', '0', 'C', '0', 'B', '0', 'A', '\n'],
        [diagLine (['f', 'i', 'l', 'e', ' '] ++ path),
          diagLine ['n', 'e', 'x', 't', ' ', '4'], diagLine ['x', 'x', 'x', 'x', '0'],
          diagLine ['e', 'm', 'p', 't', 'y']]⟩ := by
    rw [mainLoop_step load t 5 _ _ (by simp [initial, hlenT]) h1,
      mainLoop_step load t 4 _ _ (by simp [hlenT]) h2,
      mainLoop_step load t 3 _ _ (by simp [hlenT]) h3,
      mainLoop_step load t 2 _ _ (by simp [hlenT]) h4,
      mainLoop_step load t 1 _ _ (by simp [hlenT]) h5,
      mainLoop_done load t 0 _ (by simp [hlenT])]
  have hm := mainLoop_mono load t 6 (path.length + 24) initial
    (by rw [hrun]; exact Outcome.noConfusion)
  unfold main
  rw [show t.length + 1 = 6 + (path.length + 24) by omega, hm, hrun]
  rfl

/-! ## The from-end form -/

theorem goIndex_from_end {α : Type} (s : List α) (n : Nat) :
    goIndex s ((s.length : Int) - (n : Int)) =
      if n = 0 ∨ s.length < n then none else s[s.length - n]? := by
  unfold goIndex
  by_cases hn : s.length < n
  · have : (s.length : Int) - (n : Int) < 0 := by omega
    simp [this, hn]
  · have h1 : ¬ ((s.length : Int) - (n : Int) < 0) := by omega
    have h2 : ((s.length : Int) - (n : Int)).toNat = s.length - n := by omega
    rw [if_neg h1, h2]
    by_cases h0 : n = 0
    · subst h0; simp
    · simp [h0, hn]

theorem atoi_numeral_overflow (dg : Text) (n : Nat) (h : IsNumeral dg n) (hn : ¬ n < 2 ^ 63) :
    atoi dg = none := by
  obtain ⟨hne, hall, hval⟩ := h
  cases dg with
  | nil => exact absurd rfl hne
  | cons c dg =>
    have hc := isNum_ne_sign c (hall c (by simp))
    have hall2 : (c :: dg).all isNum = true := by
      rw [List.all_eq_true]; exact hall
    simp only [atoi, List.head?_cons, Option.some.injEq, hc.1, hc.2, or_self, if_false,
      hall2, hval]
    simpa using hn

theorem parseNumber_numeral_overflow (dg r : Text) (n : Nat) (h : IsNumeral dg n)
    (hn : ¬ n < 2 ^ 63) (hr : r.head?.any isNum = false) :
    parseNumber (dg ++ r) = .error (.atoi dg) := by
  have hend := numEnd_numeral dg r h.2.1 hr
  have hpos : dg.length ≠ 0 := by
    intro h0; exact h.1 (List.length_eq_zero.mp h0)
  unfold parseNumber
  rw [hend, if_neg hpos, List.take_left, atoi_numeral_overflow dg n h hn]

theorem exec_from_end_dispatch (load : Text → Option (List Byte)) (t : Text) (s : State)
    (e : Nat) (d0 : Char) (tl : Text) :
    exec load t s e ('-' :: d0 :: tl) =
      byteBranch s ('-' :: d0 :: tl) 1 (fun num => (s.context.length : Int) - num)
        fmtHex02 2 := by
  simp [exec]

theorem exec_from_end (load : Text → Option (List Byte)) (t : Text) (s : State) (e n : Nat)
    (dg r : Text) (hdg : IsNumeral dg n) (hr : r.head?.any isNum = false)
    (h1 : 1 ≤ n) (hlen : n ≤ s.context.length) (hcap : s.context.length < 2 ^ 63) :
    exec load t s e ('-' :: dg ++ r) =
      .ok { s with
        out := s.out ++ fmtHex02 (s.context.getD (s.context.length - n) 0)
        i := s.i + (2 + dg.length) } := by
  have hp := parseNumber_numeral dg r n hdg (by omega) hr
  cases dg with
  | nil => exact absurd rfl hdg.1
  | cons d0 ds =>
    have hb := getElem?_eq_getD s.context (s.context.length - n) 0 (by omega)
    have hg := goIndex_from_end s.context n
    rw [if_neg (by omega), hb] at hg
    rw [show '-' :: (d0 :: ds) ++ r = '-' :: d0 :: (ds ++ r) from rfl, exec_from_end_dispatch]
    simp only [byteBranch, List.drop_one, List.tail_cons]
    rw [show d0 :: (ds ++ r) = (d0 :: ds) ++ r from rfl, hp]
    simp only [byteAt, hg]

theorem exec_from_end_fault (load : Text → Option (List Byte)) (t : Text) (s : State)
    (e n : Nat) (dg r : Text) (hdg : IsNumeral dg n) (hr : r.head?.any isNum = false)
    (hbad : n = 0 ∨ s.context.length < n) :
    exec load t s e ('-' :: dg ++ r) =
      .error (if n < 2 ^ 63 then .indexOutOfRange else .atoi dg) := by
  cases dg with
  | nil => exact absurd rfl hdg.1
  | cons d0 ds =>
    rw [show '-' :: (d0 :: ds) ++ r = '-' :: d0 :: (ds ++ r) from rfl, exec_from_end_dispatch]
    simp only [byteBranch, List.drop_one, List.tail_cons]
    rw [show d0 :: (ds ++ r) = (d0 :: ds) ++ r from rfl]
    by_cases hn : n < 2 ^ 63
    · have hg := goIndex_from_end s.context n
      rw [if_pos hbad] at hg
      rw [parseNumber_numeral _ r n hdg hn hr, if_pos hn]
      simp only [byteAt, hg]
    · rw [parseNumber_numeral_overflow _ r n hdg hn hr, if_neg hn]

/-! ## The `%next` branch -/

theorem spaceWidth_digit (c : Char) (rest : Text) (h : isNum c = true) :
    spaceWidth (c :: rest) = 0 := by
  have hc : 48 ≤ c.toNat ∧ c.toNat ≤ 57 := by
    simpa [isNum] using h
  unfold spaceWidth
  rw [List.map_cons]
  generalize c.toNat = k at hc
  generalize List.map Char.toNat rest = l
  obtain ⟨h1, h2⟩ := hc
  interval_cases k <;> rfl

theorem fieldsGo_digits (dg : Text) (hall : ∀ c ∈ dg, isNum c = true) :
    ∀ cur : Text, cur ++ dg ≠ [] → fieldsGo dg 0 cur = [cur ++ dg] := by
  induction dg with
  | nil => intro cur h; simpa [fieldsGo] using h
  | cons c dg ih =>
    intro cur _
    have hc := spaceWidth_digit c dg (hall c (by simp))
    rw [fieldsGo, if_pos hc, ih (fun x hx => hall x (by simp [hx])) (cur ++ [c]) (by simp)]
    simp

theorem fields_next (dg : Text) (hne : dg ≠ []) (hall : ∀ c ∈ dg, isNum c = true) :
    fields (['n', 'e', 'x', 't', ' '] ++ dg) = [['n', 'e', 'x', 't'], dg] := by
  have h := fieldsGo_digits dg hall [] (by simpa using hne)
  have hn : spaceWidth ('n' :: 'e' :: 'x' :: 't' :: ' ' :: dg) = 0 := rfl
  have he : spaceWidth ('e' :: 'x' :: 't' :: ' ' :: dg) = 0 := rfl
  have hx : spaceWidth ('x' :: 't' :: ' ' :: dg) = 0 := rfl
  have ht : spaceWidth ('t' :: ' ' :: dg) = 0 := rfl
  have hs : spaceWidth (' ' :: dg) = 1 := rfl
  simp only [fields, List.cons_append, List.nil_append]
  rw [fieldsGo, if_pos hn, fieldsGo, if_pos he, fieldsGo, if_pos hx, fieldsGo, if_pos ht,
    fieldsGo, hs]
  simp [h]

theorem exec_next (load : Text → Option (List Byte)) (t : Text) (s : State) (e n : Nat)
    (dg : Text) (hdg : IsNumeral dg n) :
    exec load t s e (['n', 'e', 'x', 't', ' '] ++ dg) =
      if n < 2 ^ 63 then
        (if s.data.length < n then .error .sliceBounds
         else .ok { s with
           context := s.data.take n
           data := s.data.drop n
           i := s.i + e + 1 })
      else .error (.atoi dg) := by
  have hf := fields_next dg hdg.1 hdg.2.1
  have hlen : (['n', 'e', 'x', 't', ' '] ++ dg).length > 5 := by
    have : dg.length ≠ 0 := fun h0 => hdg.1 (List.length_eq_zero.mp h0)
    simp; omega
  have htake : (['n', 'e', 'x', 't', ' '] ++ dg).take 5 = ['n', 'e', 'x', 't', ' '] := by
    simp
  have hfile : ¬ ((['n', 'e', 'x', 't', ' '] ++ dg).length > 5 ∧
      (['n', 'e', 'x', 't', ' '] ++ dg).take 5 = ['f', 'i', 'l', 'e', ' ']) := by
    rw [htake]; simp
  rw [exec, if_neg hfile, if_pos ⟨hlen, htake⟩, hf]
  by_cases hn : n < 2 ^ 63
  · rw [if_pos hn]
    simp only [List.getElem?_cons_succ, List.getElem?_cons_zero, atoi_numeral dg n hdg hn]
    have hneg : ¬ ((n : Int) < 0) := by omega
    by_cases hl : s.data.length < n
    · simp [hl]
    · simp [hl, hneg]
  · rw [if_neg hn]
    simp only [List.getElem?_cons_succ, List.getElem?_cons_zero,
      atoi_numeral_overflow dg n hdg hn]

/-! ## The `%empty`, `%bytes` and `%stop` branches -/

theorem exec_empty (load : Text → Option (List Byte)) (t : Text) (s : State) (e : Nat)
    (r : Text) :
    exec load t s e (['e', 'm', 'p', 't', 'y'] ++ r) =
      if s.data.length > 0 then .error (.leftover s.data)
      else .ok { s with i := s.i + e + 1 } := by
  simp [exec]

theorem exec_bytes (load : Text → Option (List Byte)) (t : Text) (s : State) (e : Nat)
    (r : Text) :
    exec load t s e (['b', 'y', 't', 'e', 's'] ++ r) =
      .ok { s with out := s.out ++ renderBytes s.context, i := s.i + e + 1 } := by
  simp [exec]

theorem exec_stop (load : Text → Option (List Byte)) (t : Text) (s : State) (e : Nat)
    (r : Text) :
    exec load t s e (['s', 't', 'o', 'p'] ++ r) =
      if t.length < s.i + e + 1 then .error .sliceBounds
      else .ok { s with out := s.out ++ t.drop (s.i + e + 1), i := t.length } := by
  rcases r with _ | ⟨c, r⟩
  · simp [exec]
  · simp [exec]

theorem bytesLoop_append_short (l r : List Byte) :
    ∀ k, k % 32 + l.length < 32 →
      bytesLoop k (l ++ r) = (l.map octet).flatten ++ bytesLoop (k + l.length) r := by
  induction l with
  | nil => intro k _; simp
  | cons b l ih =>
    intro k hk
    simp only [List.length_cons] at hk
    have h31 : ¬ k % 32 = 31 := by omega
    have hk1 : (k + 1) % 32 + l.length < 32 := by omega
    rw [List.cons_append, bytesLoop, if_neg h31, ih (k + 1) hk1,
      show k + 1 + l.length = k + (b :: l).length by simp; omega]
    simp [octet]

theorem bytesLoop_full (l r : List Byte) (k : Nat) (hk : k % 32 = 0) (hl : l.length = 32) :
    bytesLoop k (l ++ r) = (l.map octet).flatten ++ '\n' :: bytesLoop (k + 32) r := by
  obtain ⟨l1, b, rfl⟩ : ∃ l1 b, l = l1 ++ [b] := by
    refine ⟨l.dropLast, l.getLast (by intro h; rw [h] at hl; simp at hl), ?_⟩
    exact (List.dropLast_append_getLast _).symm
  have hl1 : l1.length = 31 := by simpa using hl
  have h31 : (k + 31) % 32 = 31 := by omega
  rw [List.append_assoc, bytesLoop_append_short l1 _ k (by omega), hl1]
  simp only [List.singleton_append, bytesLoop, if_pos h31, List.map_append, List.flatten_append,
    List.map_cons, List.map_nil, List.flatten_cons, List.flatten_nil, List.append_nil, octet]
  simp

theorem chunksFuel_nil (fuel : Nat) : chunksFuel fuel [] = [] := by
  cases fuel <;> simp [chunksFuel]

theorem bytesLoop_chunks :
    ∀ (fuel : Nat) (l : List Byte) (k : Nat), l.length ≤ fuel → k % 32 = 0 →
      bytesLoop k l ++ (if l.length % 32 ≠ 0 then ['\n'] else []) =
        chunkLines (chunksFuel fuel l) := by
  intro fuel
  induction fuel with
  | zero =>
    intro l k hl _
    have : l = [] := List.length_eq_zero.mp (by omega)
    subst this
    simp [bytesLoop, chunksFuel, chunkLines]
  | succ fuel ih =>
    intro l k hl hk
    by_cases hnil : l = []
    · subst hnil; simp [bytesLoop, chunksFuel, chunkLines]
    · have hpos : 0 < l.length := List.length_pos.mpr hnil
      rw [chunksFuel, if_neg hnil]
      by_cases hshort : l.length < 32
      · have h1 := bytesLoop_append_short l [] k (by omega)
        rw [List.append_nil] at h1
        rw [h1, List.take_of_length_le (by omega), List.drop_of_length_le (by omega),
          chunksFuel_nil, if_pos (by omega)]
        simp [chunkLines, bytesLoop]
      · have hsplit : l = l.take 32 ++ l.drop 32 := (List.take_append_drop 32 l).symm
        have htl : (l.take 32).length = 32 := by
          rw [List.length_take]; omega
        have hdl : (l.drop 32).length = l.length - 32 := List.length_drop 32 l
        have hmod : l.length % 32 = (l.length - 32) % 32 := by omega
        have hrec := ih (l.drop 32) (k + 32) (by omega) (by omega)
        rw [hdl] at hrec
        have hfull := bytesLoop_full (l.take 32) (l.drop 32) k hk htl
        rw [← hsplit] at hfull
        rw [hfull, hmod]
        rw [chunkLines, List.map_cons, List.flatten_cons]
        rw [chunkLines] at hrec
        rw [← hrec]
        simp

theorem renderBytes_eq_chunkLines (context : List Byte) :
    renderBytes context = chunkLines (chunks context) := by
  unfold renderBytes chunks
  exact bytesLoop_chunks context.length context 0 (Nat.le_refl _) rfl

theorem chunksFuel_length :
    ∀ (fuel : Nat) (l : List Byte), l.length ≤ fuel →
      (chunksFuel fuel l).length = (l.length + 31) / 32 := by
  intro fuel
  induction fuel with
  | zero =>
    intro l hl
    have : l = [] := List.length_eq_zero.mp (by omega)
    subst this; rfl
  | succ fuel ih =>
    intro l hl
    by_cases hnil : l = []
    · subst hnil; simp [chunksFuel]
    · have hpos : 0 < l.length := List.length_pos.mpr hnil
      rw [chunksFuel, if_neg hnil, List.length_cons, ih (l.drop 32) (by simp; omega)]
      simp only [List.length_drop]
      omega

theorem octet_no_newline (b : Byte) : (octet b).count '\n' = 0 := by
  have h : ∀ d, d < 16 → Nat.digitChar d ≠ '\n' := by decide
  have h1 := h (b.val / 16) (by have := b.isLt; omega)
  have h2 := h (b.val % 16) (by omega)
  simp [octet, fmtHex02, List.count_cons, h1, h2]

theorem octets_no_newline (ch : List Byte) : ((ch.map octet).flatten).count '\n' = 0 := by
  induction ch with
  | nil => rfl
  | cons b ch ih => simp [List.count_append, octet_no_newline, ih]

theorem chunkLines_count (cs : List (List Byte)) : (chunkLines cs).count '\n' = cs.length := by
  induction cs with
  | nil => rfl
  | cons ch cs ih =>
    simp only [chunkLines, List.map_cons, List.flatten_cons, List.count_append,
      octets_no_newline, List.length_cons] at ih ⊢
    rw [ih]
    simp
    omega

theorem main_stop (load : Text → Option (List Byte)) (p tl : Text)
    (hp : ∀ c ∈ p, c ≠ '%') :
    main load (p ++ ['%', 's', 't', 'o', 'p', '\n'] ++ tl) =
      .finished ⟨(p ++ ['%', 's', 't', 'o', 'p', '\n'] ++ tl).length, [], [], p ++ tl,
        [diagLine ['s', 't', 'o', 'p']]⟩ := by
  have hT : p ++ ['%', 's', 't', 'o', 'p', '\n'] ++ tl =
      p ++ ('%' :: (['s', 't', 'o', 'p'] ++ '\n' :: tl)) := by simp
  generalize p ++ ['%', 's', 't', 'o', 'p', '\n'] ++ tl = t at hT
  have hlenT : t.length = p.length + 6 + tl.length := by rw [hT]; simp; omega
  have hdrop : t.drop (p.length + 6) = tl := by
    rw [hT, show p.length + 6 = p.length + 6 from rfl, ← List.drop_drop, List.drop_left]
    rfl
  have hstop : mainStep load t ⟨p.length, [], [], p, []⟩ =
      .ok ⟨t.length, [], [], p ++ tl, [diagLine ['s', 't', 'o', 'p']]⟩ := by
    rw [mainStep_at load t ⟨p.length, [], [], p, []⟩ ['s', 't', 'o', 'p'] ('\n' :: tl)
      (by simp) (by decide) (by simp) (by rw [hT]; simp)]
    rw [lineOf_newline, exec_stop]
    simp only [List.append_nil, List.length_cons, List.length_nil, List.nil_append]
    rw [if_neg (by omega), show p.length + (1 + (0 + 1 + 1 + 1 + 1)) + 1 = p.length + 6 by omega,
      hdrop]
  have hrun : mainLoop load t (1 + 1 + p.length) initial =
      .finished ⟨t.length, [], [], p ++ tl, [diagLine ['s', 't', 'o', 'p']]⟩ := by
    rw [mainLoop_copy load t p ('%' :: (['s', 't', 'o', 'p'] ++ '\n' :: tl)) _ initial hp
        (by rw [hT]; simp [initial]),
      mainLoop_step load t 1 _ _ (by simp [initial, hlenT]; omega)
        (by simpa [initial] using hstop),
      mainLoop_done load t 0 _ (Nat.le_refl _)]
  have hm := mainLoop_mono load t (1 + 1 + p.length) (tl.length + 5) initial
    (by rw [hrun]; exact Outcome.noConfusion)
  unfold main
  rw [show t.length + 1 = 1 + 1 + p.length + (tl.length + 5) by omega, hm, hrun]

/-! ## `parseNumber` on an arbitrary text -/

theorem numEnd_eq_takeWhile (l : Text) : numEnd l = (l.takeWhile isNum).length := by
  induction l with
  | nil => rfl
  | cons c l ih =>
    by_cases hc : isNum c = true
    · simp [numEnd, List.takeWhile_cons, hc, ih]
    · simp [numEnd, List.takeWhile_cons, hc]

theorem take_numEnd (l : Text) : l.take (numEnd l) = l.takeWhile isNum := by
  induction l with
  | nil => rfl
  | cons c l ih =>
    by_cases hc : isNum c = true
    · simp [numEnd, List.takeWhile_cons, hc, ih]
    · simp [numEnd, List.takeWhile_cons, hc]

theorem foldl_digits (l : Text) :
    ∀ acc : Nat,
      l.foldl (fun a c => a * 10 + (c.toNat - '0'.toNat)) acc =
        acc * 10 ^ l.length +
          Nat.ofDigits 10 ((l.map (fun c => c.toNat - '0'.toNat)).reverse) := by
  induction l with
  | nil => intro acc; simp
  | cons c l ih =>
    intro acc
    rw [List.foldl_cons, ih, List.map_cons, List.reverse_cons, Nat.ofDigits_append,
      Nat.ofDigits_singleton, List.length_reverse, List.length_map, List.length_cons]
    ring

theorem digitsVal_eq_ofDigits (l : Text) :
    digitsVal l = Nat.ofDigits 10 ((l.map (fun c => c.toNat - '0'.toNat)).reverse) := by
  unfold digitsVal
  rw [foldl_digits]
  simp

theorem takeWhile_numeral (l : Text) (h : l.head?.any isNum = true) :
    IsNumeral (l.takeWhile isNum) (digitsVal (l.takeWhile isNum)) := by
  refine ⟨?_, ?_, rfl⟩
  · cases l with
    | nil => simp at h
    | cons c l => simp at h; simp [List.takeWhile_cons, h]
  · intro c hc
    exact (List.mem_takeWhile_imp hc)

theorem parseNumber_run (l : Text) (h : l.head?.any isNum = true)
    (hfit : digitsVal (l.takeWhile isNum) < 2 ^ 63) :
    parseNumber l = .ok ((digitsVal (l.takeWhile isNum) : Int), (l.takeWhile isNum).length) := by
  have hnum := takeWhile_numeral l h
  have hpos : numEnd l ≠ 0 := by
    rw [numEnd_eq_takeWhile]
    intro h0; exact hnum.1 (List.length_eq_zero.mp h0)
  unfold parseNumber
  rw [if_neg hpos, take_numEnd, atoi_numeral _ _ hnum hfit, numEnd_eq_takeWhile]

theorem parseNumber_no_digit (l : Text) (h : l.head?.any isNum = false) :
    parseNumber l = .error (.badNumber l) := by
  have h0 : numEnd l = 0 := by
    cases l with
    | nil => rfl
    | cons c l => simp at h; simp [numEnd, h]
  unfold parseNumber
  rw [if_pos h0]

theorem exec_hex5_dispatch (load : Text → Option (List Byte)) (t : Text) (s : State)
    (e : Nat) (d0 : Char) (tl : Text) (hd0 : isNum d0 = true) :
    exec load t s e (['x', 'x', 'x', 'x', 'x'] ++ d0 :: tl) =
      hexBranch s (['x', 'x', 'x', 'x', 'x'] ++ d0 :: tl) 4 5 := by
  have hd := isNum_ne_letters d0 hd0
  simp [exec, hd]

/-! ## What a successful branch does to the cursor -/

theorem parseNumber_ok_span (l : Text) (num : Int) (span : Nat)
    (h : parseNumber l = .ok (num, span)) : span = numEnd l ∧ 0 < numEnd l := by
  unfold parseNumber at h
  by_cases h0 : numEnd l = 0
  · rw [if_pos h0] at h; exact Except.noConfusion h
  · rw [if_neg h0] at h
    cases ha : atoi (l.take (numEnd l)) with
    | none => rw [ha] at h; exact Except.noConfusion h
    | some v =>
      rw [ha] at h
      simp only [Except.ok.injEq, Prod.mk.injEq] at h
      exact ⟨h.2.symm, Nat.pos_of_ne_zero h0⟩

theorem decBranch_ok (s s1 : State) (line : Text) (w : Nat)
    (h : decBranch s line w = .ok s1) :
    s1.i = s.i + (1 + w + numEnd (line.drop w)) ∧ 0 < numEnd (line.drop w) := by
  unfold decBranch at h
  cases hp : parseNumber (line.drop w) with
  | error f => rw [hp] at h; exact Except.noConfusion h
  | ok r =>
    obtain ⟨num, span⟩ := r
    obtain ⟨hs, hpos⟩ := parseNumber_ok_span _ _ _ hp
    rw [hp] at h
    cases hv : numFromContext s.context num w with
    | error f => simp [hv] at h
    | ok val =>
      simp only [hv, Except.ok.injEq] at h
      rw [← h, hs]
      exact ⟨rfl, hpos⟩

theorem hexBranch_ok (s s1 : State) (line : Text) (off w : Nat)
    (h : hexBranch s line off w = .ok s1) :
    s1.i = s.i + (1 + w + numEnd (line.drop off)) ∧ 0 < numEnd (line.drop off) := by
  unfold hexBranch at h
  cases hp : parseNumber (line.drop off) with
  | error f => rw [hp] at h; exact Except.noConfusion h
  | ok r =>
    obtain ⟨num, span⟩ := r
    obtain ⟨hs, hpos⟩ := parseNumber_ok_span _ _ _ hp
    rw [hp] at h
    cases hv : numFromContext s.context num w with
    | error f => simp [hv] at h
    | ok val =>
      simp only [hv, Except.ok.injEq] at h
      rw [← h, hs]
      exact ⟨rfl, hpos⟩

theorem hybridBranch_ok (s s1 : State) (line : Text) (w : Nat)
    (h : hybridBranch s line w = .ok s1) :
    s1.i = s.i + (1 + w + numEnd (line.drop w)) ∧ 0 < numEnd (line.drop w) := by
  unfold hybridBranch at h
  cases hp : parseNumber (line.drop w) with
  | error f => rw [hp] at h; exact Except.noConfusion h
  | ok r =>
    obtain ⟨num, span⟩ := r
    obtain ⟨hs, hpos⟩ := parseNumber_ok_span _ _ _ hp
    rw [hp] at h
    cases hv : numFromContext s.context num w with
    | error f => simp [hv] at h
    | ok val =>
      simp only [hv, Except.ok.injEq] at h
      rw [← h, hs]
      exact ⟨rfl, hpos⟩

theorem byteBranch_ok (s s1 : State) (line : Text) (off : Nat) (idx : Int → Int)
    (render : Byte → Text) (adv : Nat)
    (h : byteBranch s line off idx render adv = .ok s1) :
    s1.i = s.i + (adv + numEnd (line.drop off)) ∧ 0 < numEnd (line.drop off) := by
  unfold byteBranch at h
  cases hp : parseNumber (line.drop off) with
  | error f => rw [hp] at h; exact Except.noConfusion h
  | ok r =>
    obtain ⟨num, span⟩ := r
    obtain ⟨hs, hpos⟩ := parseNumber_ok_span _ _ _ hp
    rw [hp] at h
    cases hv : byteAt s.context (idx num) with
    | error f => simp [hv] at h
    | ok b =>
      simp only [hv, Except.ok.injEq] at h
      rw [← h, hs]
      exact ⟨rfl, hpos⟩

theorem advances_ite (s : State) (c : Prop) [Decidable c] (a b : Except Fault State)
    (ha : Advances s a) (hb : Advances s b) : Advances s (if c then a else b) := by
  split
  · exact ha
  · exact hb

theorem advances_error (s : State) (f : Fault) : Advances s (.error f) :=
  fun _ h => Except.noConfusion h

theorem advances_dec (s : State) (line : Text) (w : Nat) :
    Advances s (decBranch s line w) := by
  intro s1 h
  have := decBranch_ok _ _ _ _ h
  omega

theorem advances_hex (s : State) (line : Text) (off w : Nat) :
    Advances s (hexBranch s line off w) := by
  intro s1 h
  have := hexBranch_ok _ _ _ _ _ h
  omega

theorem advances_hybrid (s : State) (line : Text) (w : Nat) :
    Advances s (hybridBranch s line w) := by
  intro s1 h
  have := hybridBranch_ok _ _ _ _ h
  omega

theorem advances_byte (s : State) (line : Text) (off : Nat) (idx : Int → Int)
    (render : Byte → Text) (adv : Nat) (hadv : 1 ≤ adv) :
    Advances s (byteBranch s line off idx render adv) := by
  intro s1 h
  have := byteBranch_ok _ _ _ _ _ _ _ h
  omega

theorem advances_ok (s s1 : State) (h : s.i + 2 ≤ s1.i) : Advances s (.ok s1) := by
  intro s2 h2
  simp only [Except.ok.injEq] at h2
  rw [← h2]; exact h

/-- Every successful branch of `exec` moves the cursor by at least 2, the
command line ending at an offset of at least 1 and inside the template. -/
theorem exec_advance (load : Text → Option (List Byte)) (t : Text) (s : State)
    (e : Nat) (line : Text) (he : 1 ≤ e) : Advances s (exec load t s e line) := by
  unfold exec
  refine advances_ite _ _ _ _ ?_ ?_
  · cases load (line.drop 5) with
    | none => exact advances_error _ _
    | some d => exact advances_ok _ _ (by dsimp only; omega)
  refine advances_ite _ _ _ _ ?_ ?_
  · cases (fields line)[1]? with
    | none => exact advances_error _ _
    | some tok =>
      dsimp only
      cases atoi tok with
      | none => exact advances_error _ _
      | some nbytes =>
        exact advances_ite _ _ _ _ (advances_error _ _) (advances_ok _ _ (by dsimp only; omega))
  refine advances_ite _ _ _ _ ?_ ?_
  · exact advances_ite _ _ _ _ (advances_error _ _) (advances_ok _ _ (by dsimp only; omega))
  refine advances_ite _ _ _ _ (advances_ok _ _ (by dsimp only; omega)) ?_
  refine advances_ite _ _ _ _ ?_ ?_
  · by_cases hl : t.length < s.i + e + 1
    · rw [if_pos hl]; exact advances_error _ _
    · rw [if_neg hl]; exact advances_ok _ _ (by dsimp only; omega)
  repeat' first
    | exact advances_error _ _
    | exact advances_dec _ _ _
    | exact advances_hex _ _ _ _
    | exact advances_hybrid _ _ _
    | exact advances_byte _ _ _ _ _ _ (by decide)
    | refine advances_ite _ _ _ _ ?_ ?_

/-! ## Progress of the loop -/

theorem drop_of_getElem? (t : Text) (i : Nat) (c : Char) (h : t[i]? = some c) :
    t.drop i = c :: t.drop (i + 1) := by
  have hi : i < t.length := by
    by_contra hge
    rw [List.getElem?_eq_none (by omega)] at h
    exact Option.noConfusion h
  rw [List.drop_eq_getElem_cons hi]
  rw [List.getElem?_eq_getElem hi] at h
  rw [Option.some.inj h]

theorem mainStep_advance (load : Text → Option (List Byte)) (t : Text) (s s1 : State)
    (h : mainStep load t s = .ok s1) :
    (t[s.i]? ≠ some '%' → s1.i = s.i + 1) ∧
    (t[s.i]? = some '%' → t[s.i + 1]? = some '%' → s1.i = s.i + 2) ∧
    (t[s.i]? = some '%' → t[s.i + 1]? ≠ some '%' → s.i + 2 ≤ s1.i) ∧
    s.i < s1.i := by
  unfold mainStep at h
  cases h0 : t[s.i]? with
  | none => rw [h0] at h; exact Except.noConfusion h
  | some c =>
    rw [h0] at h
    dsimp only at h
    by_cases hc : c = '%'
    · subst hc
      rw [if_pos rfl] at h
      cases h1 : t[s.i + 1]? with
      | none => rw [h1] at h; exact Except.noConfusion h
      | some c1 =>
        rw [h1] at h
        dsimp only at h
        by_cases hc1 : c1 = '%'
        · subst hc1
          rw [if_pos rfl] at h
          simp only [Except.ok.injEq] at h
          subst h
          simp
        · rw [if_neg hc1] at h
          have he : 1 ≤ cmdEnd t s.i := by
            rw [(cmd_of_drop t s.i _ (drop_of_getElem? t s.i '%' h0)).1]; omega
          have hadv := exec_advance load t
            { s with diag := s.diag ++ [diagLine (cmdLine t s.i)] } _ _ he s1 h
          dsimp only at hadv
          refine ⟨fun hne => absurd rfl hne, fun _ h2 => ?_, fun _ _ => hadv, by omega⟩
          simp only [Option.some.injEq] at h2
          exact absurd h2 hc1
    · rw [if_neg hc] at h
      simp only [Except.ok.injEq] at h
      subst h
      simp [hc]

theorem mainLoop_terminates (load : Text → Option (List Byte)) (t : Text) :
    ∀ (fuel : Nat) (s : State), t.length + 1 ≤ s.i + fuel → 1 ≤ fuel →
      mainLoop load t fuel s ≠ .unfinished := by
  intro fuel
  induction fuel with
  | zero => intro s _ h1; omega
  | succ fuel ih =>
    intro s hf _
    unfold mainLoop
    by_cases hi : s.i < t.length
    · rw [if_pos hi]
      cases hs : mainStep load t s with
      | error f => exact Outcome.noConfusion
      | ok s1 =>
        have := (mainStep_advance load t s s1 hs).2.2.2
        exact ih s1 (by omega) (by omega)
    · rw [if_neg hi]; exact Outcome.noConfusion

theorem mainLoop_finished_cursor (load : Text → Option (List Byte)) (t : Text) :
    ∀ (fuel : Nat) (s s1 : State), mainLoop load t fuel s = .finished s1 →
      t.length ≤ s1.i := by
  intro fuel
  induction fuel with
  | zero => intro s s1 h; exact Outcome.noConfusion h
  | succ fuel ih =>
    intro s s1 h
    unfold mainLoop at h
    by_cases hi : s.i < t.length
    · rw [if_pos hi] at h
      cases hs : mainStep load t s with
      | error f => rw [hs] at h; exact Outcome.noConfusion h
      | ok s2 => rw [hs] at h; exact ih s2 s1 h
    · rw [if_neg hi] at h
      simp only [Outcome.finished.injEq] at h
      subst h; omega

theorem stepCount_le (load : Text → Option (List Byte)) (t : Text) :
    ∀ (fuel : Nat) (s : State), stepCount load t fuel s ≤ t.length - s.i := by
  intro fuel
  induction fuel with
  | zero => intro s; simp [stepCount]
  | succ fuel ih =>
    intro s
    unfold stepCount
    by_cases hi : s.i < t.length
    · rw [if_pos hi]
      cases hs : mainStep load t s with
      | error f => dsimp only; omega
      | ok s1 =>
        have := (mainStep_advance load t s s1 hs).2.2.2
        have := ih s1
        dsimp only
        omega
    · rw [if_neg hi]; omega

/-! ## Command lines of no recognised form -/

theorem exec_unhandled (load : Text → Option (List Byte)) (t : Text) (s : State) (e : Nat)
    (line : Text) (hnot : ¬ Recognised line) (h5 : line.length ≠ 5) :
    exec load t s e line = .error (.unhandled line) := by
  unfold Recognised at hnot
  simp only [not_or] at hnot
  obtain ⟨hfile, hnext, hempty, hbytes, hstop, hname, hdigit⟩ := hnot
  rcases line with _ | ⟨c, _ | ⟨c2, tl⟩⟩
  · simp [exec]
  · simp at hdigit
    simp [exec, hdigit]
  · simp at hname hdigit hfile hnext hempty hbytes hstop h5
    obtain ⟨hd, hx, hn, hm⟩ := hname
    have h1 : ¬ (5 < tl.length + 1 + 1 ∧ c = 'f' ∧ c2 = 'i' ∧
        List.take 3 tl = ['l', 'e', ' ']) := fun h => hfile h.2.1 h.2.2.1 h.2.2.2
    have h2 : ¬ (3 ≤ tl.length ∧ c = 'e' ∧ c2 = 'm' ∧
        List.take 3 tl = ['p', 't', 'y']) := fun h => hempty h.2.1 h.2.2.1 h.2.2.2
    have h3 : ¬ (3 ≤ tl.length ∧ c = 'b' ∧ c2 = 'y' ∧
        List.take 3 tl = ['t', 'e', 's']) := fun h => hbytes h.2.1 h.2.2.1 h.2.2.2
    have h4 : ¬ (2 ≤ tl.length ∧ c = 's' ∧ c2 = 't' ∧
        List.take 2 tl = ['o', 'p']) := fun h => hstop h.2.1 h.2.2.1 h.2.2.2
    have h6 : ¬ (4 < tl.length + 1 + 1 ∧ tl.length + 1 + 1 < 6) := by omega
    simp [exec, hd, hx, hn, hm, hdigit, h1, h2, h3, h4, h6]

/-! ## Dispatch by the shape of the command line -/

theorem exec_hex_dispatch (load : Text → Option (List Byte)) (t : Text) (s : State)
    (e w : Nat) (d0 : Char) (tl : Text) (hw1 : 1 ≤ w) (hw6 : w ≤ 6) (hd0 : isNum d0 = true) :
    exec load t s e (List.replicate w 'x' ++ d0 :: tl) =
      if w = 1 then
        byteBranch s (List.replicate w 'x' ++ d0 :: tl) 1 id
          (fun b => '0' :: 'x' :: fmtHexUpper b.val) 2
      else hexBranch s (List.replicate w 'x' ++ d0 :: tl) (if w = 5 then 4 else w) w := by
  have hd := isNum_ne_letters d0 hd0
  interval_cases w <;> simp [exec, hd]

theorem exec_hybrid_dispatch (load : Text → Option (List Byte)) (t : Text) (s : State)
    (e w : Nat) (d0 : Char) (tl : Text) (hw1 : 1 ≤ w) (hw6 : w ≤ 6) (hd0 : isNum d0 = true) :
    exec load t s e (List.replicate w 'n' ++ d0 :: tl) =
      if (List.replicate w 'n' ++ d0 :: tl).length = 5 then .error .sliceBounds
      else if w = 1 then
        byteBranch s (List.replicate w 'n' ++ d0 :: tl) 1 id (fun b => fmtHybrid b.val) 2
      else hybridBranch s (List.replicate w 'n' ++ d0 :: tl) w := by
  have hd := isNum_ne_letters d0 hd0
  interval_cases w
  · by_cases h5 : tl.length = 3
    · simp [exec, hd, h5]
    · have h6 : ¬ (4 < tl.length + 1 + 1 ∧ tl.length + 1 + 1 < 6) := by omega
      simp [exec, hd, h5, h6]
  · by_cases h5 : tl.length = 2
    · simp [exec, hd, h5]
    · have h6 : ¬ (4 < tl.length + 1 + 1 + 1 ∧ tl.length + 1 + 1 + 1 < 6) := by omega
      simp [exec, hd, h5, h6]
  · by_cases h5 : tl.length = 1
    · simp [exec, hd, h5]
    · have h6 : ¬ (4 < tl.length + 1 + 1 + 1 + 1 ∧ tl.length + 1 + 1 + 1 + 1 < 6) := by
        omega
      simp [exec, hd, h5, h6]
      omega
  · by_cases h5 : tl.length = 0
    · simp [exec, hd, h5]
    · have h6 : ¬ (tl.length + 1 + 1 + 1 + 1 + 1 < 6) := by omega
      simp [exec, hd, h5, h6]
  · simp [exec, hd]
  · simp [exec, hd]

theorem exec_bare_dispatch (load : Text → Option (List Byte)) (t : Text) (s : State)
    (e : Nat) (d0 : Char) (tl : Text) (hd0 : isNum d0 = true) :
    exec load t s e (d0 :: tl) =
      if (d0 :: tl).length = 5 then .error .sliceBounds
      else byteBranch s (d0 :: tl) 0 id fmtHex02 1 := by
  have hd := isNum_ne_letters d0 hd0
  by_cases h5 : tl.length = 4
  · simp [exec, hd, h5]
  · have h6 : ¬ (4 < tl.length + 1 ∧ tl.length + 1 < 6) := by omega
    simp [exec, hd, hd0, h5, h6]

/-! ## The cursor after a successful directive -/

theorem exec_numeric_ok (load : Text → Option (List Byte)) (t : Text) (s s1 : State)
    (e : Nat) (name dg r : Text) (hname : IsNumericName name) (hne : dg ≠ [])
    (hall : ∀ c ∈ dg, isNum c = true) (hr : r.head?.any isNum = false)
    (h : exec load t s e (name ++ dg ++ r) = .ok s1) :
    s1.i = s.i + (1 + name.length + dg.length) := by
  have hend := numEnd_numeral dg r hall hr
  cases dg with
  | nil => exact absurd rfl hne
  | cons d0 ds =>
    have hd0 : isNum d0 = true := hall d0 (by simp)
    rcases hname with rfl | rfl | ⟨c, w, hc, hw1, hw6, rfl⟩
    · rw [List.nil_append, List.cons_append, exec_bare_dispatch load t s e d0 _ hd0] at h
      split_ifs at h
      have := (byteBranch_ok _ _ _ _ _ _ _ h).1
      rw [List.drop_zero, ← List.cons_append, hend] at this
      simpa using this
    · rw [show ['-'] ++ d0 :: ds ++ r = '-' :: d0 :: (ds ++ r) from rfl,
        exec_from_end_dispatch] at h
      have := (byteBranch_ok _ _ _ _ _ _ _ h).1
      rw [show List.drop 1 ('-' :: d0 :: (ds ++ r)) = (d0 :: ds) ++ r from rfl, hend] at this
      rw [this]; simp
    · have hdrop : List.drop w (List.replicate w c ++ (d0 :: ds ++ r)) = d0 :: ds ++ r :=
        List.drop_left' (by simp)
      rw [List.append_assoc] at h
      rw [List.length_replicate]
      rcases hc with rfl | rfl | rfl
      · rw [List.cons_append, exec_dec_dispatch load t s e w d0 _ hw1 hw6 hd0] at h
        split_ifs at h with h1
        · subst h1
          have := (byteBranch_ok _ _ _ _ _ _ _ h).1
          rw [← List.cons_append, hdrop, hend] at this
          rw [this]
        · have := (decBranch_ok _ _ _ _ h).1
          rw [← List.cons_append, hdrop, hend] at this
          exact this
      · rw [List.cons_append, exec_hex_dispatch load t s e w d0 _ hw1 hw6 hd0] at h
        split_ifs at h with h1 h5
        · subst h1
          have := (byteBranch_ok _ _ _ _ _ _ _ h).1
          rw [← List.cons_append, hdrop, hend] at this
          rw [this]
        · subst h5
          have := (hexBranch_ok _ _ _ _ _ h).2
          simp [numEnd, isNum] at this
        · have := (hexBranch_ok _ _ _ _ _ h).1
          rw [← List.cons_append, hdrop, hend] at this
          exact this
      · rw [List.cons_append, exec_hybrid_dispatch load t s e w d0 _ hw1 hw6 hd0] at h
        split_ifs at h with h5 h1
        · subst h1
          have := (byteBranch_ok _ _ _ _ _ _ _ h).1
          rw [← List.cons_append, hdrop, hend] at this
          rw [this]
        · have := (hybridBranch_ok _ _ _ _ h).1
          rw [← List.cons_append, hdrop, hend] at this
          exact this

theorem exec_keyword_ok (load : Text → Option (List Byte)) (t : Text) (s s1 : State)
    (e : Nat) (kw r : Text) (hkw : IsBufferKeyword kw)
    (h : exec load t s e (kw ++ r) = .ok s1) :
    s1.i = s.i + e + 1 ∧
      s1.out = s.out ++ (if kw = ['b', 'y', 't', 'e', 's'] then renderBytes s.context else []) := by
  rcases hkw with rfl | rfl | rfl | rfl
  · rcases r with _ | ⟨c, r⟩
    · simp [exec] at h
    · simp only [exec, List.cons_append, List.nil_append] at h
      rw [if_pos (by simp)] at h
      cases hl : load (List.drop 5 ('f' :: 'i' :: 'l' :: 'e' :: ' ' :: c :: r)) with
      | none => rw [hl] at h; exact Except.noConfusion h
      | some d =>
        rw [hl] at h
        simp only [Except.ok.injEq] at h
        subst h
        simp
  · rcases r with _ | ⟨c, r⟩
    · simp [exec] at h
    · simp only [exec, List.cons_append, List.nil_append] at h
      rw [if_neg (by simp), if_pos (by simp)] at h
      cases hf : (fields ('n' :: 'e' :: 'x' :: 't' :: ' ' :: c :: r))[1]? with
      | none => rw [hf] at h; exact Except.noConfusion h
      | some tok =>
        rw [hf] at h
        dsimp only at h
        cases ha : atoi tok with
        | none => rw [ha] at h; exact Except.noConfusion h
        | some nbytes =>
          rw [ha] at h
          dsimp only at h
          split_ifs at h
          simp only [Except.ok.injEq] at h
          subst h
          simp
  · rw [exec_empty] at h
    split_ifs at h
    simp only [Except.ok.injEq] at h
    subst h
    simp
  · rw [exec_bytes] at h
    simp only [Except.ok.injEq] at h
    subst h
    simp

theorem numericName_chars (name : Text) (h : IsNumericName name) :
    ∀ c ∈ name, c ≠ '\n' ∧ c ≠ '%' := by
  intro c hc
  rcases h with rfl | rfl | ⟨x, w, hx, _, _, rfl⟩
  · simp at hc
  · simp at hc; subst hc; decide
  · rw [(List.mem_replicate.mp hc).2]
    rcases hx with rfl | rfl | rfl <;> decide

theorem mainStep_numeric_ok (load : Text → Option (List Byte)) (t : Text) (s s1 : State)
    (name dg rest : Text) (hok : mainStep load t s = .ok s1) (hname : IsNumericName name)
    (hne : dg ≠ []) (hall : ∀ c ∈ dg, isNum c = true)
    (hrest : rest.head?.any isNum = false)
    (hcur : t.drop s.i = '%' :: (name ++ dg ++ rest)) :
    s1.i = s.i + (1 + name.length + dg.length) ∧ t.drop s1.i = rest := by
  have hchars : ∀ c ∈ name ++ dg, c ≠ '\n' ∧ c ≠ '%' := by
    intro c hc
    rcases List.mem_append.mp hc with hc | hc
    · exact numericName_chars name hname c hc
    · exact ⟨isNum_ne_newline c (hall c hc), (isNum_ne_letters c (hall c hc)).2.2.2.2.1⟩
  have hne2 : name ++ dg ≠ [] := by simp [hne]
  have hhd : (name ++ dg).head? ≠ some '%' := by
    intro h
    exact (hchars '%' (List.mem_of_mem_head? h)).2 rfl
  have hstep := mainStep_at load t s (name ++ dg) rest hne2 (fun c hc => (hchars c hc).1)
    hhd hcur
  rw [hok] at hstep
  have hi := exec_numeric_ok load t _ s1 _ name dg (lineOf rest) hname hne hall
    (head_lineOf rest hrest) hstep.symm
  dsimp only at hi
  refine ⟨hi, ?_⟩
  rw [hi]
  have := drop_add_of_drop t s.i ('%' :: (name ++ dg)) rest (by simpa using hcur)
  rw [← this]
  congr 1
  simp; omega

theorem mainStep_keyword_ok (load : Text → Option (List Byte)) (t : Text) (s s1 : State)
    (kw rest : Text) (hok : mainStep load t s = .ok s1) (hkw : IsBufferKeyword kw)
    (hcur : t.drop s.i = '%' :: (kw ++ rest)) :
    s1.i = s.i + (1 + (kw ++ lineOf rest).length + 1) ∧
      t.drop s1.i = rest.drop ((lineOf rest).length + 1) ∧
      s1.out =
        s.out ++ (if kw = ['b', 'y', 't', 'e', 's'] then renderBytes s.context else []) := by
  have hprops : kw ≠ [] ∧ (∀ c ∈ kw, c ≠ '\n') ∧ kw.head? ≠ some '%' := by
    rcases hkw with rfl | rfl | rfl | rfl <;> exact ⟨by simp, by decide, by simp⟩
  have hstep := mainStep_at load t s kw rest hprops.1 hprops.2.1 hprops.2.2 hcur
  rw [hok] at hstep
  obtain ⟨hi, hout⟩ := exec_keyword_ok load t _ s1 _ kw (lineOf rest) hkw hstep.symm
  dsimp only at hi hout
  refine ⟨by rw [hi]; omega, ?_, hout⟩
  rw [hi, show s.i + (1 + (kw ++ lineOf rest).length) + 1 =
      s.i + (('%' :: kw).length + ((lineOf rest).length + 1)) by simp; omega,
    ← List.drop_drop, ← List.drop_drop, hcur,
    show '%' :: (kw ++ rest) = ('%' :: kw) ++ rest from rfl, List.drop_left]

/-! ## The claims -/

/-- C1: `numFromContext` decodes little-endian.  For every context, every width
`w` with `1 ≤ w ≤ 6` and every index with `index + w ≤ len(context)`, the
result is the sum over `b < w` of `context[index+b] * 256^b`: the byte at
`index` is the least significant one. -/
theorem numFromContext_littleEndian (context : List Byte) (index w : Nat)
    (_hw1 : 1 ≤ w) (_hw6 : w ≤ 6) (hlen : index + w ≤ context.length) :
    numFromContext context (index : Int) w =
      .ok (Finset.sum (Finset.range w)
        (fun b => (context.getD (index + b) 0).val * 256 ^ b)) :=
  numFromContext_eq_leValue context index w hlen

/-- Witness of C1: the context `[0x01, 0x02]`, index 0, width 2 gives 513. -/
theorem numFromContext_littleEndian_witness :
    numFromContext [0x01, 0x02] ((0 : Nat) : Int) 2 = .ok 513 := by
  have h := numFromContext_littleEndian [0x01, 0x02] 0 2 (by decide) (by decide) (by decide)
  simpa [Finset.sum_range_succ] using h

/-- Counterexample to C2 as stated: on the four bytes `0A 0B 0C 0D` the run
writes `0xD0C0B0A`, with no leading zero, not `0x0D0C0B0A`. -/
theorem sequence_padded_hex_counterexample :
    ∃ s, main (oneFile [0x0A, 0x0B, 0x0C, 0x0D]) (sequenceTemplate ['f']) = .finished s ∧
      s.out = "0xD0C0B0A\n".toList ∧ s.out ≠ "0x0D0C0B0A\n".toList :=
  ⟨⟨30, [], [0x0A, 0x0B, 0x0C, 0x0D], "0xD0C0B0A\n".toList,
      ["command %file f".toList, "command %next 4".toList, "command %xxxx0".toList,
        "command %empty".toList]⟩, by decide, rfl, by decide⟩

/-- C2 (amended): with a loader that returns the bytes `0A 0B 0C 0D` for the
file name, the template `%file <path>`, `%next 4`, `%xxxx0`, `%empty`, each on
its own line, runs to the end: `%xxxx0` renders `0xD0C0B0A` (upper-case
hexadecimal of the little-endian value, without a leading zero) and `%empty`
succeeds, `data` having length 0. -/
theorem sequence_renders_hex_then_empty (load : Text → Option (List Byte)) (path : Text)
    (hne : path ≠ []) (hnl : '\n' ∉ path)
    (hload : load path = some [0x0A, 0x0B, 0x0C, 0x0D]) :
    main load (sequenceTemplate path) =
      .finished ⟨path.length + 29, [], [0x0A, 0x0B, 0x0C, 0x0D], "0xD0C0B0A\n".toList,
        [diagLine ("file ".toList ++ path), diagLine "next 4".toList,
          diagLine "xxxx0".toList, diagLine "empty".toList]⟩ :=
  sequence_run load path hne hnl hload

/-- Witness of C2 (amended): the file name `f`. -/
theorem sequence_renders_hex_then_empty_witness :
    main (oneFile [0x0A, 0x0B, 0x0C, 0x0D]) "%file f\n%next 4\n%xxxx0\n%empty\n".toList =
      .finished ⟨30, [], [0x0A, 0x0B, 0x0C, 0x0D], "0xD0C0B0A\n".toList,
        ["command %file f".toList, "command %next 4".toList, "command %xxxx0".toList,
          "command %empty".toList]⟩ :=
  sequence_renders_hex_then_empty (oneFile [0x0A, 0x0B, 0x0C, 0x0D]) ['f'] (by decide)
    (by decide) (by decide)

/-- C3: a template without the marker `%` is copied to the output character for
character; the run ends normally with the cursor at the end of the template,
`data` and `context` still empty and no diagnostic line. -/
theorem marker_free_template_verbatim (load : Text → Option (List Byte)) (t : Text)
    (h : '%' ∉ t) :
    main load t = .finished ⟨t.length, [], [], t, []⟩ :=
  main_literal load t (fun _ hc hcm => h (hcm ▸ hc))

/-- Witness of C3: the template `plain text` followed by a newline. -/
theorem marker_free_template_verbatim_witness :
    '%' ∉ "plain text\n".toList ∧
      main (fun _ => none) "plain text\n".toList =
        .finished ⟨11, [], [], "plain text\n".toList, []⟩ :=
  ⟨by decide, marker_free_template_verbatim (fun _ => none) "plain text\n".toList (by decide)⟩

/-- C4: the escape form.  With the cursor on a `%` that is directly followed by
a second `%`, the step appends exactly one `%` to the output, advances the
cursor by 2, leaves `data` and `context` as they are and writes no diagnostic,
wherever the pair stands in the template.  Hence for marker-free texts `a` and
`b` the template `a ++ "%%" ++ b` gives the output `a ++ "%" ++ b`. -/
theorem escape_renders_one_marker (load : Text → Option (List Byte)) (t : Text) (s : State)
    (a b : Text) (h0 : t[s.i]? = some '%') (h1 : t[s.i + 1]? = some '%')
    (ha : '%' ∉ a) (hb : '%' ∉ b) :
    mainStep load t s =
        .ok ⟨s.i + 2, s.data, s.context, s.out ++ ['%'], s.diag⟩ ∧
      main load (a ++ '%' :: '%' :: b) =
        .finished ⟨a.length + 2 + b.length, [], [], a ++ '%' :: b, []⟩ :=
  ⟨mainStep_escape load t s h0 h1,
    main_escape load a b (fun _ hc hcm => ha (hcm ▸ hc)) (fun _ hc hcm => hb (hcm ▸ hc))⟩

/-- Witness of C4: the pair as the last two characters of the template, after
the text `ab`, in a state with non-empty buffers. -/
theorem escape_renders_one_marker_witness :
    mainStep (fun _ => none) "ab%%".toList ⟨2, [7], [8, 9], "ab".toList, []⟩ =
        .ok ⟨4, [7], [8, 9], "ab%".toList, []⟩ ∧
      main (fun _ => none) ("ab".toList ++ '%' :: '%' :: []) =
        .finished ⟨4, [], [], "ab".toList ++ '%' :: [], []⟩ :=
  escape_renders_one_marker (fun _ => none) "ab%%".toList ⟨2, [7], [8, 9], "ab".toList, []⟩
    "ab".toList [] (by decide) (by decide) (by decide) (by decide)

/-- C5 at the failing input: `%xxxxx0` on a five-byte context.  The branch reads
its argument at offset 4 of the command line, where the fifth `x` stands, so
`parseNumber` panics with "bad number" and nothing is rendered. -/
theorem hex_width_five_bad_number :
    main (oneFile [1, 2, 3, 4, 5]) "%file f\n%next 5\n%xxxxx0\n".toList =
      .panicked (.badNumber "x0".toList)
        ⟨16, [], [1, 2, 3, 4, 5], [],
          ["command %file f".toList, "command %next 5".toList]⟩ := by
  decide

/-- C6: the decimal family, longest name first.  With the cursor on `%`
followed by exactly `w` letters `d` (`1 ≤ w ≤ 6`) and the decimal digits of `n`
(then any text that does not continue the number), where
`n + w ≤ len(context)`, the step runs the body of the width-`w` form and appends
the unpadded decimal rendering of the little-endian value of
`context[n .. n+w-1]`; the cursor moves past the digits. -/
theorem decimal_family_longest_first (load : Text → Option (List Byte)) (t : Text)
    (s : State) (w n : Nat) (rest : Text) (hw1 : 1 ≤ w) (hw6 : w ≤ 6)
    (hcur : t.drop s.i = '%' :: (List.replicate w 'd' ++ Nat.toDigits 10 n ++ rest))
    (hrest : rest.head?.any isNum = false)
    (hlen : n + w ≤ s.context.length) (hcap : s.context.length < 2 ^ 63) :
    mainStep load t s =
        .ok ⟨s.i + (1 + w + (Nat.toDigits 10 n).length), s.data, s.context,
          s.out ++ fmtDec (leValue s.context n w),
          s.diag ++ [diagLine (List.replicate w 'd' ++ Nat.toDigits 10 n ++ lineOf rest)]⟩ ∧
      mainStep load t s =
        (if w = 1 then
          byteBranch
            { s with diag := s.diag ++
                [diagLine (List.replicate w 'd' ++ Nat.toDigits 10 n ++ lineOf rest)] }
            (List.replicate w 'd' ++ Nat.toDigits 10 n ++ lineOf rest) 1 id
            (fun b => fmtDec b.val) 2
        else
          decBranch
            { s with diag := s.diag ++
                [diagLine (List.replicate w 'd' ++ Nat.toDigits 10 n ++ lineOf rest)] }
            (List.replicate w 'd' ++ Nat.toDigits 10 n ++ lineOf rest) w) := by
  have hdg := toDigits_numeral n
  have hnl : ∀ c ∈ List.replicate w 'd' ++ Nat.toDigits 10 n, c ≠ '\n' := by
    intro c hc
    rcases List.mem_append.mp hc with hc | hc
    · rw [(List.mem_replicate.mp hc).2]; decide
    · exact isNum_ne_newline c (hdg.2.1 c hc)
  have hw : w = (w - 1) + 1 := by omega
  have hstep := mainStep_at load t s (List.replicate w 'd' ++ Nat.toDigits 10 n) rest
    (by rw [hw]; simp [List.replicate_succ]) hnl
    (by rw [hw]; simp [List.replicate_succ]) (by simpa using hcur)
  have hr := head_lineOf rest hrest
  rw [List.append_assoc] at hstep
  simp only [List.append_assoc]
  constructor
  · rw [hstep]
    have := exec_dec load t
      { s with diag := s.diag ++
          [diagLine (List.replicate w 'd' ++ (Nat.toDigits 10 n ++ lineOf rest))] }
      (1 + (List.replicate w 'd' ++ (Nat.toDigits 10 n ++ lineOf rest)).length) w n
      (Nat.toDigits 10 n) (lineOf rest) hw1 hw6 hdg (by omega) hr hlen
    rw [List.append_assoc] at this
    exact this
  · rw [hstep]
    obtain ⟨d0, ds, hd⟩ : ∃ d0 ds, Nat.toDigits 10 n = d0 :: ds := by
      cases h : Nat.toDigits 10 n with
      | nil => exact absurd h hdg.1
      | cons d0 ds => exact ⟨d0, ds, rfl⟩
    have hd0 : isNum d0 = true := hdg.2.1 d0 (by rw [hd]; simp)
    rw [hd]
    exact exec_dec_dispatch load t _ _ w d0 (ds ++ lineOf rest) hw1 hw6 hd0

/-- Witness of C6: `%dd1` on the context `[1, 2, 3]` renders 770 = 2 + 3 * 256,
and is not read as `%d` followed by `d1`. -/
theorem decimal_family_longest_first_witness :
    mainStep (fun _ => none) "%dd1 bytes".toList ⟨0, [], [1, 2, 3], [], []⟩ =
      .ok ⟨4, [], [1, 2, 3], "770".toList, ["command %dd1 bytes".toList]⟩ :=
  (decimal_family_longest_first (fun _ => none) "%dd1 bytes".toList
    ⟨0, [], [1, 2, 3], [], []⟩ 2 1 " bytes".toList (by decide) (by decide) (by decide)
    (by decide) (by decide) (by decide)).1

/-- C7 at the failing input: `%n0 is` on its line.  The command line `n0 is`
has five characters, so the test `len(line) > 4 && line[0:6] == "nnnnnn"`
slices past its end and the run panics before the `n` branch is reached. -/
theorem hybrid_line_of_five_panics :
    main (oneFile [5]) "%file f\n%next 1\n%n0 is\n".toList =
      .panicked .sliceBounds
        ⟨16, [], [5], [], ["command %file f".toList, "command %next 1".toList]⟩ := by
  decide

/-- Counterexample to C8 as stated: for the byte 10 the directive `%n0` renders
`0xA (10)`, not `0x0A (10)`. -/
theorem hybrid_byte_ten_counterexample :
    ∃ s, main (oneFile [10]) "%file f\n%next 1\n%n0\n".toList = .finished s ∧
      s.out = "0xA (10)\n".toList ∧ s.out ≠ "0x0A (10)\n".toList :=
  ⟨⟨20, [], [10], "0xA (10)\n".toList,
      ["command %file f".toList, "command %next 1".toList, "command %n0".toList]⟩,
    by decide, rfl, by decide⟩

/-- C8 (amended): with the cursor on `%n` followed by the decimal digits of an
index `idx` inside the context (then any text that does not continue the
number), on a command line that is not five characters long, the step renders
`5` when `context[idx]` is 5 and `0xA (10)` when it is 10. -/
theorem hybrid_byte_five_and_ten (load : Text → Option (List Byte)) (t : Text) (s : State)
    (idx : Nat) (rest : Text)
    (hcur : t.drop s.i = '%' :: ('n' :: Nat.toDigits 10 idx ++ rest))
    (hrest : rest.head?.any isNum = false)
    (hidx : idx < s.context.length) (hcap : s.context.length < 2 ^ 63)
    (hline : ('n' :: Nat.toDigits 10 idx ++ lineOf rest).length ≠ 5) :
    (s.context.getD idx 0 = 5 →
      mainStep load t s =
        .ok ⟨s.i + (2 + (Nat.toDigits 10 idx).length), s.data, s.context,
          s.out ++ "5".toList,
          s.diag ++ [diagLine ('n' :: Nat.toDigits 10 idx ++ lineOf rest)]⟩) ∧
    (s.context.getD idx 0 = 10 →
      mainStep load t s =
        .ok ⟨s.i + (2 + (Nat.toDigits 10 idx).length), s.data, s.context,
          s.out ++ "0xA (10)".toList,
          s.diag ++ [diagLine ('n' :: Nat.toDigits 10 idx ++ lineOf rest)]⟩) := by
  have hdg := toDigits_numeral idx
  have hnl : ∀ c ∈ 'n' :: Nat.toDigits 10 idx, c ≠ '\n' := by
    intro c hc
    rcases List.mem_cons.mp hc with hc | hc
    · rw [hc]; decide
    · exact isNum_ne_newline c (hdg.2.1 c hc)
  have hstep := mainStep_at load t s ('n' :: Nat.toDigits 10 idx) rest (by simp) hnl
    (by simp) hcur
  have hr := head_lineOf rest hrest
  have hx := exec_hybrid load t
    { s with diag := s.diag ++ [diagLine ('n' :: Nat.toDigits 10 idx ++ lineOf rest)] }
    (1 + ('n' :: Nat.toDigits 10 idx ++ lineOf rest).length) 1 idx
    (Nat.toDigits 10 idx) (lineOf rest) (by decide) (by decide) hdg (by omega) hr
    (by simpa using hidx) (by simp at hline ⊢; omega)
  rw [leValue_one] at hx
  have hx2 : mainStep load t s = _ := hstep.trans hx
  constructor
  · intro h5
    rw [hx2, h5]
    simp [Nat.add_comm 1 1]
    rfl
  · intro h10
    rw [hx2, h10]
    simp [Nat.add_comm 1 1]
    rfl

/-- Witness of C8 (amended): `%n0` and `%n1` at the end of a template, on the
context `[5, 10]`. -/
theorem hybrid_byte_five_and_ten_witness :
    mainStep (fun _ => none) "%n0".toList ⟨0, [], [5, 10], [], []⟩ =
        .ok ⟨3, [], [5, 10], "5".toList, ["command %n0".toList]⟩ ∧
      mainStep (fun _ => none) "%n1".toList ⟨0, [], [5, 10], [], []⟩ =
        .ok ⟨3, [], [5, 10], "0xA (10)".toList, ["command %n1".toList]⟩ :=
  ⟨(hybrid_byte_five_and_ten (fun _ => none) "%n0".toList ⟨0, [], [5, 10], [], []⟩ 0 []
      (by decide) (by decide) (by decide) (by decide) (by decide)).1 (by decide),
    (hybrid_byte_five_and_ten (fun _ => none) "%n1".toList ⟨0, [], [5, 10], [], []⟩ 1 []
      (by decide) (by decide) (by decide) (by decide) (by decide)).2 (by decide)⟩

/-- C9 at the failing input: `%0 end` on its line.  The command line `0 end`
has five characters, so the test `len(line) > 4 && line[0:6] == "nnnnnn"`,
which comes before the bare form, slices past its end and the run panics. -/
theorem bare_line_of_five_panics :
    main (oneFile [0xAB]) "%file f\n%next 1\n%0 end\n".toList =
      .panicked .sliceBounds
        ⟨16, [], [0xAB], [], ["command %file f".toList, "command %next 1".toList]⟩ := by
  decide

/-- C10: the from-end form.  With the cursor on `%-` followed by the decimal
digits of `n` (and then a text that does not continue the number), for
`1 ≤ n ≤ len(context)` the step appends the two lower-case hexadecimal digits of
`context[len(context) - n]` (so `n = 1` is the last byte) and moves the cursor
past the digits; for `n = 0` or `n > len(context)` the step panics, and so does
the run that reaches it. -/
theorem from_end_form (load : Text → Option (List Byte)) (t : Text) (s : State) (n : Nat)
    (rest : Text)
    (hcur : t.drop s.i = '%' :: ('-' :: Nat.toDigits 10 n ++ rest))
    (hrest : rest.head?.any isNum = false)
    (hcap : s.context.length < 2 ^ 63) :
    (1 ≤ n → n ≤ s.context.length →
      mainStep load t s =
        .ok ⟨s.i + (2 + (Nat.toDigits 10 n).length), s.data, s.context,
          s.out ++ fmtHex02 (s.context.getD (s.context.length - n) 0),
          s.diag ++ [diagLine ('-' :: Nat.toDigits 10 n ++ lineOf rest)]⟩) ∧
    (n = 0 ∨ s.context.length < n →
      ∃ f, mainStep load t s = .error f ∧
        ∀ fuel, mainLoop load t (fuel + 1) s = .panicked f s) := by
  have hdg := toDigits_numeral n
  have hnl : ∀ c ∈ '-' :: Nat.toDigits 10 n, c ≠ '\n' := by
    intro c hc
    rcases List.mem_cons.mp hc with hc | hc
    · rw [hc]; decide
    · exact isNum_ne_newline c (hdg.2.1 c hc)
  have hstep := mainStep_at load t s ('-' :: Nat.toDigits 10 n) rest (by simp) hnl
    (by simp) hcur
  have hr := head_lineOf rest hrest
  constructor
  · intro h1 hlen
    rw [hstep]
    exact exec_from_end load t
      { s with diag := s.diag ++ [diagLine ('-' :: Nat.toDigits 10 n ++ lineOf rest)] }
      _ n _ _ hdg hr h1 hlen hcap
  · intro hbad
    have hf : mainStep load t s =
        .error (if n < 2 ^ 63 then .indexOutOfRange else .atoi (Nat.toDigits 10 n)) := by
      rw [hstep]
      exact exec_from_end_fault load t
        { s with diag := s.diag ++ [diagLine ('-' :: Nat.toDigits 10 n ++ lineOf rest)] }
        _ n _ _ hdg hr hbad
    exact ⟨_, hf, fun fuel =>
      mainLoop_fault load t fuel s _ (lt_length_of_drop t s.i _ _ hcur) hf⟩

/-- Witness of C10: `%-1` on the context `[0x11, 0x22, 0x33]` renders `33`, and
`%-0` on it panics. -/
theorem from_end_form_witness :
    mainStep (fun _ => none) "%-1".toList ⟨0, [], [0x11, 0x22, 0x33], [], []⟩ =
        .ok ⟨3, [], [0x11, 0x22, 0x33], "33".toList, ["command %-1".toList]⟩ ∧
      ∃ f, mainStep (fun _ => none) "%-0".toList ⟨0, [], [0x11, 0x22, 0x33], [], []⟩ =
          .error f ∧
        ∀ fuel, mainLoop (fun _ => none) "%-0".toList (fuel + 1)
          ⟨0, [], [0x11, 0x22, 0x33], [], []⟩ =
            .panicked f ⟨0, [], [0x11, 0x22, 0x33], [], []⟩ :=
  ⟨(from_end_form (fun _ => none) "%-1".toList ⟨0, [], [0x11, 0x22, 0x33], [], []⟩ 1 []
      (by decide) (by decide) (by decide)).1 (by decide) (by decide),
    (from_end_form (fun _ => none) "%-0".toList ⟨0, [], [0x11, 0x22, 0x33], [], []⟩ 0 []
      (by decide) (by decide) (by decide)).2 (by decide)⟩

/-- C11: `%next <count>` splits Data.  With the cursor on `%next ` followed by
the decimal digits of `count` and the end of the line, for
`count ≤ len(data)` the step makes `context` the first `count` bytes of the old
`data` and `data` the remaining bytes, so that the new `context` followed by
the new `data` is the old `data` and the new `context` has `count` bytes; the
output is unchanged and the cursor moves past the line and its newline.  For
`count > len(data)` the step panics, and so does the run that reaches it. -/
theorem next_splits_data (load : Text → Option (List Byte)) (t : Text) (s : State)
    (count : Nat) (rest : Text)
    (hcur : t.drop s.i = '%' :: (['n', 'e', 'x', 't', ' '] ++ Nat.toDigits 10 count ++ rest))
    (hline : lineOf rest = [])
    (hcap : s.data.length < 2 ^ 63) :
    (count ≤ s.data.length →
      mainStep load t s =
          .ok ⟨s.i + (5 + (Nat.toDigits 10 count).length + 2), s.data.drop count,
            s.data.take count, s.out,
            s.diag ++ [diagLine (['n', 'e', 'x', 't', ' '] ++ Nat.toDigits 10 count)]⟩ ∧
        s.data.take count ++ s.data.drop count = s.data ∧
        (s.data.take count).length = count) ∧
    (s.data.length < count →
      ∃ f, mainStep load t s = .error f ∧
        ∀ fuel, mainLoop load t (fuel + 1) s = .panicked f s) := by
  have hdg := toDigits_numeral count
  have hnl : ∀ c ∈ ['n', 'e', 'x', 't', ' '] ++ Nat.toDigits 10 count, c ≠ '\n' := by
    intro c hc
    rcases List.mem_append.mp hc with hc | hc
    · exact (by decide : ∀ c ∈ ['n', 'e', 'x', 't', ' '], c ≠ '\n') c hc
    · exact isNum_ne_newline c (hdg.2.1 c hc)
  have hstep := mainStep_at load t s (['n', 'e', 'x', 't', ' '] ++ Nat.toDigits 10 count) rest
    (by simp) hnl (by simp) hcur
  rw [hline, List.append_nil] at hstep
  have hx := exec_next load t
    { s with diag := s.diag ++ [diagLine (['n', 'e', 'x', 't', ' '] ++ Nat.toDigits 10 count)] }
    (1 + (['n', 'e', 'x', 't', ' '] ++ Nat.toDigits 10 count).length) count
    (Nat.toDigits 10 count) hdg
  have hs : mainStep load t s = _ := hstep.trans hx
  constructor
  · intro hle
    refine ⟨?_, List.take_append_drop count s.data, List.length_take_of_le hle⟩
    rw [hs, if_pos (by omega), if_neg (by simpa using hle)]
    simp
    omega
  · intro hlt
    have hf : mainStep load t s =
        .error (if count < 2 ^ 63 then .sliceBounds
          else .atoi (Nat.toDigits 10 count)) := by
      rw [hs]
      by_cases hn : count < 2 ^ 63
      · rw [if_pos hn, if_pos hn, if_pos (by simpa using hlt)]
      · rw [if_neg hn, if_neg hn]
    exact ⟨_, hf, fun fuel =>
      mainLoop_fault load t fuel s _ (lt_length_of_drop t s.i _ _ hcur) hf⟩

/-- Witness of C11: `%next 2` on the data `[1, 2, 3]`, and `%next 4` on it. -/
theorem next_splits_data_witness :
    (mainStep (fun _ => none) "%next 2\nx".toList ⟨0, [1, 2, 3], [9], [], []⟩ =
        .ok ⟨8, [3], [1, 2], [], ["command %next 2".toList]⟩ ∧
      [1, 2] ++ [3] = ([1, 2, 3] : List Byte) ∧ ([1, 2] : List Byte).length = 2) ∧
    ∃ f, mainStep (fun _ => none) "%next 4\nx".toList ⟨0, [1, 2, 3], [9], [], []⟩ =
        .error f ∧
      ∀ fuel, mainLoop (fun _ => none) "%next 4\nx".toList (fuel + 1)
        ⟨0, [1, 2, 3], [9], [], []⟩ = .panicked f ⟨0, [1, 2, 3], [9], [], []⟩ :=
  ⟨(next_splits_data (fun _ => none) "%next 2\nx".toList ⟨0, [1, 2, 3], [9], [], []⟩ 2
      "\nx".toList (by decide) (by decide) (by decide)).1 (by decide),
    (next_splits_data (fun _ => none) "%next 4\nx".toList ⟨0, [1, 2, 3], [9], [], []⟩ 4
      "\nx".toList (by decide) (by decide) (by decide)).2 (by decide)⟩

/-- C12: `%empty` succeeds exactly when Data has length 0.  With the cursor on
`%empty`: when `data` is empty the step writes nothing, leaves `data` and
`context` as they are and moves the cursor past the line and its newline; when
`data` is not empty the step panics with the leftover error, which carries the
leftover bytes, and the run that reaches it stops there with the output it
had before the directive. -/
theorem empty_iff_no_data (load : Text → Option (List Byte)) (t : Text) (s : State)
    (rest : Text)
    (hcur : t.drop s.i = '%' :: (['e', 'm', 'p', 't', 'y'] ++ rest)) :
    ((∃ s1, mainStep load t s = .ok s1) ↔ s.data.length = 0) ∧
    (s.data.length = 0 →
      mainStep load t s =
        .ok ⟨s.i + (5 + (lineOf rest).length + 2), s.data, s.context, s.out,
          s.diag ++ [diagLine (['e', 'm', 'p', 't', 'y'] ++ lineOf rest)]⟩) ∧
    (s.data.length ≠ 0 →
      mainStep load t s = .error (.leftover s.data) ∧
        ∀ fuel, mainLoop load t (fuel + 1) s = .panicked (.leftover s.data) s) := by
  have hstep := mainStep_at load t s ['e', 'm', 'p', 't', 'y'] rest (by simp) (by decide)
    (by simp) hcur
  rw [exec_empty] at hstep
  have hok : s.data.length = 0 →
      mainStep load t s =
        .ok ⟨s.i + (5 + (lineOf rest).length + 2), s.data, s.context, s.out,
          s.diag ++ [diagLine (['e', 'm', 'p', 't', 'y'] ++ lineOf rest)]⟩ := by
    intro h0
    rw [hstep, if_neg (by simp [h0])]
    simp
    omega
  have hbad : s.data.length ≠ 0 → mainStep load t s = .error (.leftover s.data) := by
    intro h0
    rw [hstep, if_pos (by simpa using Nat.pos_of_ne_zero h0)]
  refine ⟨⟨?_, fun h0 => ⟨_, hok h0⟩⟩, hok, fun h0 => ⟨hbad h0, fun fuel =>
    mainLoop_fault load t fuel s _ (lt_length_of_drop t s.i _ _ hcur) (hbad h0)⟩⟩
  rintro ⟨s1, hs1⟩
  by_contra h0
  rw [hbad h0] at hs1
  exact Except.noConfusion hs1

/-- Witness of C12: `%empty` with no data left, and with the bytes `[7, 8]`
left. -/
theorem empty_iff_no_data_witness :
    mainStep (fun _ => none) "%empty\nrest".toList ⟨0, [], [1], "a".toList, []⟩ =
        .ok ⟨7, [], [1], "a".toList, ["command %empty".toList]⟩ ∧
      (mainStep (fun _ => none) "%empty\nrest".toList ⟨0, [7, 8], [1], "a".toList, []⟩ =
          .error (.leftover [7, 8]) ∧
        ∀ fuel, mainLoop (fun _ => none) "%empty\nrest".toList (fuel + 1)
          ⟨0, [7, 8], [1], "a".toList, []⟩ =
            .panicked (.leftover [7, 8]) ⟨0, [7, 8], [1], "a".toList, []⟩) :=
  ⟨(empty_iff_no_data (fun _ => none) "%empty\nrest".toList ⟨0, [], [1], "a".toList, []⟩
      "\nrest".toList (by decide)).2.1 (by decide),
    (empty_iff_no_data (fun _ => none) "%empty\nrest".toList ⟨0, [7, 8], [1], "a".toList, []⟩
      "\nrest".toList (by decide)).2.2 (by decide)⟩

/-- C13: the rendering of `%bytes`.  With the cursor on `%bytes` the step
appends, for the consecutive chunks of at most 32 bytes of `context`, the
octets of the chunk (each a space and two lower-case hexadecimal digits)
followed by one newline.  The appended text has `ceil(len(context) / 32)`
newlines, is empty for an empty context, and for a context of 33 bytes is a
line of 32 octets followed by a line of exactly one. -/
theorem bytes_rendering (load : Text → Option (List Byte)) (t : Text) (s : State)
    (rest : Text)
    (hcur : t.drop s.i = '%' :: (['b', 'y', 't', 'e', 's'] ++ rest)) :
    mainStep load t s =
        .ok ⟨s.i + (5 + (lineOf rest).length + 2), s.data, s.context,
          s.out ++ chunkLines (chunks s.context),
          s.diag ++ [diagLine (['b', 'y', 't', 'e', 's'] ++ lineOf rest)]⟩ ∧
      (chunkLines (chunks s.context)).count '\n' = (s.context.length + 31) / 32 ∧
      (s.context = [] → chunkLines (chunks s.context) = []) ∧
      (s.context.length = 33 →
        (s.context.take 32).length = 32 ∧
        chunkLines (chunks s.context) =
          ((s.context.take 32).map octet).flatten ++
            '\n' :: (octet (s.context.getD 32 0) ++ ['\n'])) := by
  have hstep := mainStep_at load t s ['b', 'y', 't', 'e', 's'] rest (by simp) (by decide)
    (by simp) hcur
  rw [exec_bytes, renderBytes_eq_chunkLines] at hstep
  refine ⟨?_, ?_, ?_, ?_⟩
  · rw [hstep]
    simp
    omega
  · rw [chunkLines_count, chunks, chunksFuel_length _ _ (Nat.le_refl _)]
  · intro h; rw [h]; rfl
  · intro h33
    have hd : s.context.drop 32 = [s.context.getD 32 0] := by
      have h1 : s.context[32]? = some (s.context.getD 32 0) :=
        getElem?_eq_getD s.context 32 0 (by omega)
      have h2 : s.context.drop 32 = s.context[32] :: s.context.drop 33 :=
        List.drop_eq_getElem_cons (by omega)
      rw [h2, List.drop_of_length_le (by omega)]
      rw [List.getElem?_eq_getElem (by omega)] at h1
      rw [Option.some.inj h1]
    have hne : s.context ≠ [] := by
      intro h0; rw [h0] at h33; simp at h33
    refine ⟨by rw [List.length_take]; omega, ?_⟩
    rw [chunks, h33, chunksFuel, if_neg hne, hd, chunksFuel, if_neg (by simp)]
    simp [chunksFuel_nil, chunkLines]

/-- Witness of C13: `%bytes` on the context `[0x01, 0xAB]`. -/
theorem bytes_rendering_witness :
    mainStep (fun _ => none) "%bytes\n".toList ⟨0, [], [0x01, 0xAB], [], []⟩ =
      .ok ⟨7, [], [0x01, 0xAB], " 01 ab\n".toList, ["command %bytes".toList]⟩ :=
  (bytes_rendering (fun _ => none) "%bytes\n".toList ⟨0, [], [0x01, 0xAB], [], []⟩
    "\n".toList (by decide)).1

/-- C14: `%stop` passes the rest through.  For every marker-free text `p` and
every text `tl`, whatever it contains, the run on `p`, `%stop`, a newline and
`tl` ends normally with the output `p ++ tl`: what follows the line of `%stop`
is copied unchanged and no directive in it is interpreted. -/
theorem stop_passes_rest_through (load : Text → Option (List Byte)) (p tl : Text)
    (hp : '%' ∉ p) :
    main load (p ++ "%stop\n".toList ++ tl) =
      .finished ⟨(p ++ "%stop\n".toList ++ tl).length, [], [], p ++ tl,
        [diagLine "stop".toList]⟩ :=
  main_stop load p tl (fun _ hc hcm => hp (hcm ▸ hc))

/-- Witness of C14: after `%stop` come an escape pair, an unknown command and
a `%empty`. -/
theorem stop_passes_rest_through_witness :
    main (fun _ => none) ("ab\n".toList ++ "%stop\n".toList ++ "%% %bogus %empty\n".toList) =
      .finished ⟨26, [], [], "ab\n".toList ++ "%% %bogus %empty\n".toList,
        ["command %stop".toList]⟩ :=
  stop_passes_rest_through (fun _ => none) "ab\n".toList "%% %bogus %empty\n".toList
    (by decide)

/-- C15: `parseNumber` takes the maximal digit run.  When the text starts with
a decimal digit and the value of its longest all-digit beginning fits a 64-bit
signed integer, the result is that value and the length of that beginning;
when the text is empty or starts with another character, `parseNumber` panics
with "bad number". -/
theorem parseNumber_maximal_run (l : Text) :
    (l.head?.any isNum = true →
      Nat.ofDigits 10 (((l.takeWhile isNum).map (fun c => c.toNat - '0'.toNat)).reverse)
          < 2 ^ 63 →
      parseNumber l =
        .ok ((Nat.ofDigits 10
              (((l.takeWhile isNum).map (fun c => c.toNat - '0'.toNat)).reverse) : Nat),
          (l.takeWhile isNum).length)) ∧
    (l.head?.any isNum = false → parseNumber l = .error (.badNumber l)) := by
  refine ⟨fun h hfit => ?_, parseNumber_no_digit l⟩
  rw [← digitsVal_eq_ofDigits] at hfit ⊢
  exact parseNumber_run l h hfit

/-- Witness of C15: `0042abc7` gives 42 with a span of 4, and `x1` is a bad
number. -/
theorem parseNumber_maximal_run_witness :
    parseNumber "0042abc7".toList = .ok (42, 4) ∧
      parseNumber "x1".toList = .error (.badNumber "x1".toList) :=
  ⟨(parseNumber_maximal_run "0042abc7".toList).1 (by decide) (by decide),
    (parseNumber_maximal_run "x1".toList).2 (by decide)⟩

/-- C16 at the failing inputs.  The command line `hello` matches no form and
has five characters: the test `len(line) > 4 && line[0:6] == "nnnnnn"` slices
past its end, so the run panics with a slice-bounds error and the branch of
the unknown-command error is not reached.  A marker that is the last character
of the template has an empty command line: the escape test reads
`template[i+1]` past the end and the run panics with an index error. -/
theorem unknown_command_other_panics :
    main (fun _ => none) "%hello\n".toList = .panicked .sliceBounds initial ∧
      main (fun _ => none) "%".toList = .panicked .indexOutOfRange initial := by
  decide

/-- C17: the cursor after a directive.  Let a step on a directive succeed.
When the directive is a numeric one (a name of the bare, from-end, `d`, `x` or
`n` forms, then the digits of the argument, then a text that does not continue
the number), the cursor has moved by 1 plus the length of the name plus the
number of digits, so that the text after the digits is scanned next.  When it
is a `file`, `next`, `empty` or `bytes` directive, the cursor has moved past the
command line and its newline, and nothing but the rendering of `bytes` has been
written. -/
theorem cursor_after_directive (load : Text → Option (List Byte)) (t : Text)
    (s s1 : State) (hok : mainStep load t s = .ok s1) :
    (∀ name dg rest, IsNumericName name → dg ≠ [] → (∀ c ∈ dg, isNum c = true) →
      rest.head?.any isNum = false → t.drop s.i = '%' :: (name ++ dg ++ rest) →
      s1.i = s.i + (1 + name.length + dg.length) ∧ t.drop s1.i = rest) ∧
    (∀ kw rest, IsBufferKeyword kw → t.drop s.i = '%' :: (kw ++ rest) →
      s1.i = s.i + (1 + (kw ++ lineOf rest).length + 1) ∧
        t.drop s1.i = rest.drop ((lineOf rest).length + 1) ∧
        s1.out =
          s.out ++
            (if kw = ['b', 'y', 't', 'e', 's'] then renderBytes s.context else [])) :=
  ⟨fun name dg rest hname hne hall hrest hcur =>
      mainStep_numeric_ok load t s s1 name dg rest hok hname hne hall hrest hcur,
    fun kw rest hkw hcur => mainStep_keyword_ok load t s s1 kw rest hok hkw hcur⟩

/-- Witness of C17: after `%dd1` the cursor is on the `%d0` that follows on the
same line; after `%next 2 `, with a trailing space, it is past the newline. -/
theorem cursor_after_directive_witness :
    ((4 : Nat) = 0 + (1 + 2 + 1) ∧
        "%dd1%d0\n".toList.drop 4 = "%d0\n".toList) ∧
      ((9 : Nat) = 0 + (1 + ("next ".toList ++ lineOf "2 \nab".toList).length + 1) ∧
        "%next 2 \nab".toList.drop 9 = "2 \nab".toList.drop ((lineOf "2 \nab".toList).length + 1) ∧
        ([] : Text) = [] ++ (if "next ".toList = "bytes".toList then renderBytes [9] else [])) :=
  ⟨(cursor_after_directive (fun _ => none) "%dd1%d0\n".toList ⟨0, [], [1, 2, 3], [], []⟩
        ⟨4, [], [1, 2, 3], "770".toList, ["command %dd1%d0".toList]⟩ rfl).1
      "dd".toList "1".toList "%d0\n".toList
      (Or.inr (Or.inr ⟨'d', 2, Or.inl rfl, by decide, by decide, rfl⟩)) (by decide)
      (by decide) (by decide) (by decide),
    (cursor_after_directive (fun _ => none) "%next 2 \nab".toList ⟨0, [1, 2, 3], [9], [], []⟩
        ⟨9, [3], [1, 2], [], ["command %next 2 ".toList]⟩ rfl).2
      "next ".toList "2 \nab".toList (Or.inr (Or.inl rfl)) (by decide)⟩

/-- C18 at the failing input: `%stop` as the last line of the template, with no
newline after it.  The branch adds `end + 1` to the cursor, which is then one
past the end of the template, and the slice `template[i:]` panics. -/
theorem stop_on_last_line_panics :
    main (fun _ => none) "abc%stop".toList =
      .panicked .sliceBounds ⟨3, [], [], "abc".toList, []⟩ := by
  decide

/-- C19: the width-5 `0x` form.  With the cursor on `%xxxxx` followed by a
decimal digit, the step runs the body that reads its argument at offset 4 of
the command line, where the fifth `x` stands; `parseNumber` therefore panics
with "bad number" on the text from that `x` on, for every context, and the run
that reaches the directive stops there with its output unchanged. -/
theorem hex_width_five_reads_one_early (load : Text → Option (List Byte)) (t : Text)
    (s : State) (d0 : Char) (rest : Text)
    (hcur : t.drop s.i = '%' :: (['x', 'x', 'x', 'x', 'x'] ++ d0 :: rest))
    (hd0 : isNum d0 = true) :
    mainStep load t s =
        hexBranch
          { s with diag := s.diag ++
              [diagLine (['x', 'x', 'x', 'x', 'x'] ++ d0 :: lineOf rest)] }
          (['x', 'x', 'x', 'x', 'x'] ++ d0 :: lineOf rest) 4 5 ∧
      (['x', 'x', 'x', 'x', 'x'] ++ d0 :: lineOf rest).drop 4 = 'x' :: d0 :: lineOf rest ∧
      mainStep load t s = .error (.badNumber ('x' :: d0 :: lineOf rest)) ∧
      ∀ fuel, mainLoop load t (fuel + 1) s =
        .panicked (.badNumber ('x' :: d0 :: lineOf rest)) s := by
  have hnl : ∀ c ∈ ['x', 'x', 'x', 'x', 'x'] ++ [d0], c ≠ '\n' := by
    intro c hc
    rcases List.mem_append.mp hc with hc | hc
    · exact (by decide : ∀ c ∈ ['x', 'x', 'x', 'x', 'x'], c ≠ '\n') c hc
    · rw [List.mem_singleton.mp hc]; exact isNum_ne_newline d0 hd0
  have hstep := mainStep_at load t s (['x', 'x', 'x', 'x', 'x'] ++ [d0]) rest (by simp) hnl
    (by simp) (by simpa using hcur)
  have hline : ['x', 'x', 'x', 'x', 'x'] ++ [d0] ++ lineOf rest =
      ['x', 'x', 'x', 'x', 'x'] ++ d0 :: lineOf rest := by simp
  rw [hline, exec_hex5_dispatch load t _ _ d0 _ hd0] at hstep
  have hbad : mainStep load t s = .error (.badNumber ('x' :: d0 :: lineOf rest)) := by
    have hp := parseNumber_no_digit ('x' :: d0 :: lineOf rest) (by simp; decide)
    rw [hstep]
    simp [hexBranch, hp]
  exact ⟨hstep, rfl, hbad, fun fuel =>
    mainLoop_fault load t fuel s _ (lt_length_of_drop t s.i _ _ hcur) hbad⟩

/-- Witness of C19: `%xxxxx0` on a context of five bytes. -/
theorem hex_width_five_reads_one_early_witness :
    mainStep (fun _ => none) "%xxxxx0\n".toList ⟨0, [], [1, 2, 3, 4, 5], [], []⟩ =
        .error (.badNumber "x0".toList) ∧
      ∀ fuel, mainLoop (fun _ => none) "%xxxxx0\n".toList (fuel + 1)
        ⟨0, [], [1, 2, 3, 4, 5], [], []⟩ =
          .panicked (.badNumber "x0".toList) ⟨0, [], [1, 2, 3, 4, 5], [], []⟩ :=
  (hex_width_five_reads_one_early (fun _ => none) "%xxxxx0\n".toList
    ⟨0, [], [1, 2, 3, 4, 5], [], []⟩ '0' "\n".toList (by decide) (by decide)).2.2

/-- C20: the loop terminates.  A step that does not panic moves the cursor
forward: by exactly 1 on a literal character, by exactly 2 on an escape pair
and by at least 2 on a directive, numeric or keyword.  Hence, for every
template and every file loader, the run attempts at most `len(template)` steps,
it ends within the budget of the model, and when it ends without a panic the
cursor is at or past the end of the template. -/
theorem loop_terminates (load : Text → Option (List Byte)) (t : Text) :
    (∀ s s1, mainStep load t s = .ok s1 →
      (t[s.i]? ≠ some '%' → s1.i = s.i + 1) ∧
      (t[s.i]? = some '%' → t[s.i + 1]? = some '%' → s1.i = s.i + 2) ∧
      (t[s.i]? = some '%' → t[s.i + 1]? ≠ some '%' → s.i + 2 ≤ s1.i) ∧
      s.i < s1.i) ∧
    (∀ fuel, stepCount load t fuel initial ≤ t.length) ∧
    main load t ≠ .unfinished ∧
    (∀ s1, main load t = .finished s1 → t.length ≤ s1.i) :=
  ⟨mainStep_advance load t,
    fun fuel => by simpa [initial] using stepCount_le load t fuel initial,
    mainLoop_terminates load t (t.length + 1) initial (by simp [initial]) (by omega),
    fun s1 h => mainLoop_finished_cursor load t (t.length + 1) initial s1 h⟩

/-- Witness of C20: a template of 12 characters with an escape pair and an
unknown command; the loop attempts 5 steps and panics on the fifth. -/
theorem loop_terminates_witness :
    stepCount (fun _ => none) "ab%%c%bogus\n".toList 13 initial ≤ 12 ∧
      main (fun _ => none) "ab%%c%bogus\n".toList ≠ .unfinished :=
  ⟨(loop_terminates (fun _ => none) "ab%%c%bogus\n".toList).2.1 13,
    (loop_terminates (fun _ => none) "ab%%c%bogus\n".toList).2.2.1⟩

end IllGenerator
